import Mathlib

/-!
Verification of the ingestion/aggregation pipeline of the chat-analyse plugin
(`src/collector.ts`).  The development shallowly embeds:

* the content sanitizer `sanitizeContent` together with the slice of the
  koishi element helper (`h.transform`, element stringification with XML
  escaping of text nodes) that it delegates to;
* the collector state (aggregate buffers, identity cache, persistent store),
  its message handler `onMessage` and its `flushBuffers` commit procedure,
  executed sequentially (awaits resolving in order) with explicit knobs for
  the outcomes of the external calls (guild lookup, storage success);
* a small-step interleaving machine for the identity resolver, modelling the
  JavaScript event-loop semantics of the promise-coalescing code path
  (each synchronous segment between `await`s is one atomic action).

Machine integers do not occur (all counters are unbounded JS numbers used as
non-negative integers, modelled as `Nat`); timestamps are epoch milliseconds
modelled as `Nat`.
-/

/-! ### Elements and the koishi `h` helper

`session.elements` is a list of message elements.  Each element has a type
tag and an attribute record; the attributes relevant to `collector.ts` are
`content` (text nodes), `id` (mention target) and `summary` (image summary).
Message elements handled here are leaves, so children are not modelled; the
collector's transform rules never recurse anyway.
-/

structure Attrs where
  content : Option String := none
  id : Option String := none
  summary : Option String := none
  deriving DecidableEq, Repr

structure Element where
  type : String
  attrs : Attrs
  deriving DecidableEq, Repr

/-- Concatenation of a list of strings, as JavaScript `array.join('')`. -/
def concatStrs : List String → String
  | [] => ""
  | s :: rest => s ++ concatStrs rest

/-- Replacement of one character under `escape` of the koishi element
library: the chained `.replace(/&/g,'&amp;').replace(/</g,'&lt;')
.replace(/>/g,'&gt;')` is equivalent to this character-wise map because no
replacement string contains a character rewritten by a later pass. -/
def escChar (c : Char) : String :=
  if c = '&' then "&amp;"
  else if c = '<' then "&lt;"
  else if c = '>' then "&gt;"
  else String.singleton c

/-- `escape` of the koishi element library (non-inline mode), applied by
`Element.toString` to text nodes. -/
def escapeHtml (s : String) : String :=
  concatStrs (s.data.map escChar)

/-- Attribute-value escaping (inline mode additionally escapes `\x22`). -/
def escAttrChar (c : Char) : String :=
  if c = '"' then "&quot;" else escChar c

def escAttr (s : String) : String :=
  concatStrs (s.data.map escAttrChar)

def attrEntry (name : String) (v : Option String) : String :=
  match v with
  | some s => " " ++ name ++ "=\"" ++ escAttr s ++ "\""
  | none => ""

/-- Serialization of the attribute record, in declaration order, as the
koishi `Element.toString` renders attribute objects. -/
def attrsString (a : Attrs) : String :=
  attrEntry "content" a.content ++ attrEntry "id" a.id ++ attrEntry "summary" a.summary

/-- The transform rules registered by `sanitizeContent` in `collector.ts`:
`text` returns `attrs.content` (possibly `undefined`), `img` returns
`'[gif]'` for animated images and `'[img]'` otherwise, `at` returns
`[at:<id>]` (a JS template literal, hence `undefined` prints as the string
`undefined`).  The outer `none` means no rule is registered for the type. -/
def sanitizeRule (ty : String) (a : Attrs) : Option (Option String) :=
  if ty = "text" then some a.content
  else if ty = "img" then some (some (if a.summary = some "[动画表情]" then "[gif]" else "[img]"))
  else if ty = "at" then some (some ("[at:" ++ (a.id.getD "undefined") ++ "]"))
  else none

/-- `toElementArray` of the koishi element library on a string result: a
non-empty string becomes one text element, an empty (falsy) string becomes
no element. -/
def toElementArray (s : String) : List Element :=
  if s = "" then [] else [⟨"text", { content := some s }⟩]

/-- `h.transform` as invoked by `sanitizeContent`: a registered rule maps
the element to the elements of its string result (`undefined` results are
dropped); types without a rule fall back to `rules.default ?? true`, and
since no default rule is registered the element is kept unchanged. -/
def transformElems : List Element → List Element
  | [] => []
  | e :: rest =>
    match sanitizeRule e.type e.attrs with
    | none => e :: transformElems rest
    | some none => transformElems rest
    | some (some s) => toElementArray s ++ transformElems rest

/-- `Element.toString` of the koishi element library: text nodes render as
their XML-escaped content, any other (childless) element as
`<type attrs/>`. -/
def elemToString (e : Element) : String :=
  if e.type = "text" then escapeHtml (e.attrs.content.getD "")
  else "<" ++ e.type ++ attrsString e.attrs ++ "/>"

/-- `sanitizeContent` of `collector.ts`:
`h.transform(elements, rules, '').join('')`. -/
def sanitizeContent (els : List Element) : String :=
  concatStrs ((transformElems els).map elemToString)

/-- The per-element contribution of `sanitizeContent`, stated independently
of the transform recursion: rule results are re-wrapped as text nodes and
hence XML-escaped on stringification, unmatched elements serialize as
XML-style tags. -/
def specToken (e : Element) : String :=
  match sanitizeRule e.type e.attrs with
  | none => elemToString e
  | some none => ""
  | some (some s) => escapeHtml s

/-- A plain text element, as produced by the platform for a text run. -/
def mkText (t : String) : Element :=
  ⟨"text", { content := some t }⟩

/-! ### Collector data model

Table row shapes from the `model.extend` declarations in `collector.ts`.
Buffers are JavaScript `Map`s (insertion-ordered association lists whose
`set` replaces in place); the JS map keys are the strings
`` `${uid}:${command}` `` etc.  Since the decimal rendering of `uid`
contains no `:`, that string key determines the component tuple, so keys
are modelled directly as tuples. -/

structure UserRow where
  uid : Nat
  channelId : String
  userId : String
  channelName : String
  userName : String
  deriving DecidableEq, Repr

structure UserCache where
  uid : Nat
  userName : String
  channelName : String
  deriving DecidableEq, Repr

structure CmdEntry where
  uid : Nat
  command : String
  count : Nat
  timestamp : Nat
  deriving DecidableEq, Repr

structure MsgEntry where
  uid : Nat
  type : String
  count : Nat
  timestamp : Nat
  deriving DecidableEq, Repr

structure RankEntry where
  uid : Nat
  timestamp : Nat
  type : String
  count : Nat
  deriving DecidableEq, Repr

structure AtRow where
  uid : Nat
  target : String
  content : String
  timestamp : Nat
  deriving DecidableEq, Repr

structure CacheRow where
  uid : Nat
  content : String
  timestamp : Nat
  deriving DecidableEq, Repr

/-- The durable store: one list of rows per table.  `analyse_user` assigns
`uid` by auto-increment; the core never deletes identity rows, so the next
handle is `length + 1`. -/
structure Store where
  userRows : List UserRow := []
  cmdRows : List CmdEntry := []
  msgRows : List MsgEntry := []
  rankRows : List RankEntry := []
  atRows : List AtRow := []
  cacheRows : List CacheRow := []
  deriving DecidableEq, Repr

/-- Plugin configuration switches used by the collector. -/
structure Config where
  enableOriRecord : Bool
  enableWhoAt : Bool
  deriving DecidableEq, Repr

/-- First-match lookup in an insertion-ordered association list
(JavaScript `Map.get`). -/
def mapGet {κ α : Type} [DecidableEq κ] : List (κ × α) → κ → Option α
  | [], _ => none
  | (k', v) :: rest, k => if k' = k then some v else mapGet rest k

/-- In-place update or append (JavaScript `Map.set`). -/
def mapSet {κ α : Type} [DecidableEq κ] : List (κ × α) → κ → α → List (κ × α)
  | [], k, v => [(k, v)]
  | (k', v') :: rest, k, v =>
    if k' = k then (k, v) :: rest else (k', v') :: mapSet rest k v

/-- Iteration order of `new Set(list)`: each value once, at its first
occurrence. -/
def dedupFirst {α : Type} [DecidableEq α] : List α → List α
  | [] => []
  | a :: rest => a :: (dedupFirst rest).filter (fun b => ¬ b = a)

/-- In-memory state of one `Collector` instance, together with the store it
commits to and the error log. -/
structure CState where
  cmdStatBuffer : List ((Nat × String) × CmdEntry) := []
  msgStatBuffer : List ((Nat × String) × MsgEntry) := []
  rankStatBuffer : List ((Nat × Nat × String) × RankEntry) := []
  whoAtBuffer : List AtRow := []
  oriCacheBuffer : List CacheRow := []
  userCache : List ((String × String) × UserCache) := []
  store : Store := {}
  log : List String := []
  deriving DecidableEq, Repr

def Collector.FLUSH_INTERVAL : Nat := 60000

def Collector.BUFFER_THRESHOLD : Nat := 100

/-- Additive upsert of one buffered aggregate into `analyse_cmd` (primary
key `(uid, command)`): `count = ifNull(existing, 0) + delta`, timestamp
overwritten; rows of other keys untouched; a missing row is inserted with
the delta itself. -/
def upsertCmdRow : List CmdEntry → CmdEntry → List CmdEntry
  | [], item => [item]
  | r :: rs, item =>
    if r.uid = item.uid ∧ r.command = item.command then
      { item with count := r.count + item.count } :: rs
    else r :: upsertCmdRow rs item

/-- Additive upsert into `analyse_msg` (primary key `(uid, type)`). -/
def upsertMsgRow : List MsgEntry → MsgEntry → List MsgEntry
  | [], item => [item]
  | r :: rs, item =>
    if r.uid = item.uid ∧ r.type = item.type then
      { item with count := r.count + item.count } :: rs
    else r :: upsertMsgRow rs item

/-- Additive upsert into `analyse_rank` (primary key
`(uid, timestamp, type)`). -/
def upsertRankRow : List RankEntry → RankEntry → List RankEntry
  | [], item => [item]
  | r :: rs, item =>
    if r.uid = item.uid ∧ r.timestamp = item.timestamp ∧ r.type = item.type then
      { item with count := r.count + item.count } :: rs
    else r :: upsertRankRow rs item

def commitCmd (rows : List CmdEntry) (items : List CmdEntry) : List CmdEntry :=
  items.foldl upsertCmdRow rows

def commitMsg (rows : List MsgEntry) (items : List MsgEntry) : List MsgEntry :=
  items.foldl upsertMsgRow rows

def commitRank (rows : List RankEntry) (items : List RankEntry) : List RankEntry :=
  items.foldl upsertRankRow rows

/-- The sequence of storage commits a flush attempts, in program order; a
commit is attempted only for a non-empty snapshot (`buffers.x.length > 0`).
`analyse_at` and `analyse_cache` rows carry no primary key, so their upsert
degenerates to an append-only bulk insert. -/
def flushAtts (bufCmd : List CmdEntry) (bufMsg : List MsgEntry) (bufRank : List RankEntry)
    (bufAt : List AtRow) (bufCache : List CacheRow) : List (Store → Store) :=
  (if bufCmd.isEmpty then [] else [fun st => { st with cmdRows := commitCmd st.cmdRows bufCmd }])
  ++ (if bufMsg.isEmpty then [] else [fun st => { st with msgRows := commitMsg st.msgRows bufMsg }])
  ++ (if bufRank.isEmpty then [] else [fun st => { st with rankRows := commitRank st.rankRows bufRank }])
  ++ (if bufAt.isEmpty then [] else [fun st => { st with atRows := st.atRows ++ bufAt }])
  ++ (if bufCache.isEmpty then [] else [fun st => { st with cacheRows := st.cacheRows ++ bufCache }])

/-- `flushBuffers`: snapshot every buffer, clear the live buffers, then
commit the snapshots sequentially inside one `try`.  `okCount` is the
number of attempted storage commits that succeed before one throws (any
value at least the number of attempts means full success); the commits
after the throwing one are not attempted, the error is logged, and nothing
is merged back. -/
def flushBuffers (s : CState) (okCount : Nat) : CState :=
  let bufCmd := s.cmdStatBuffer.map Prod.snd
  let bufMsg := s.msgStatBuffer.map Prod.snd
  let bufRank := s.rankStatBuffer.map Prod.snd
  let bufAt := s.whoAtBuffer
  let bufCache := s.oriCacheBuffer
  let atts := flushAtts bufCmd bufMsg bufRank bufAt bufCache
  let store' := (atts.take okCount).foldl (fun st f => f st) s.store
  let log' := if okCount < atts.length then s.log ++ ["数据库刷写失败:"] else s.log
  { s with cmdStatBuffer := [], msgStatBuffer := [], rankStatBuffer := [],
           whoAtBuffer := [], oriCacheBuffer := [], store := store', log := log' }

/-- One inbound session, with the fields `onMessage` destructures.
`username` stands for `session.username` and is consulted only on a cache
miss. -/
structure Sess where
  channelId : Option String
  userId : Option String
  content : Option String
  timestamp : Nat
  argv : Option String
  username : Option String
  elements : List Element
  deriving DecidableEq, Repr

/-- The identity-resolution block of `onMessage`, executed sequentially
(cache check, then the async lookup/create completing before the fold).
`guildName` is the result of `bot.getGuild(channelId).catch(() => null)`
(`none` models both a failed lookup and a guild without a name, exactly as
`guild?.name ?? ''` does); `dbOk` tells whether the storage operations of
this resolution succeed — when they throw, the catch block logs and yields
`null`, and no identity is produced. -/
def resolveUser (s : CState) (ch us : String) (username guildName : Option String)
    (dbOk : Bool) : Option Nat × CState :=
  match mapGet s.userCache (ch, us) with
  | some u => (some u.uid, s)
  | none =>
    if dbOk then
      let currentUserName := username.getD ""
      let currentChannelName := guildName.getD ""
      match s.store.userRows.find? (fun r => r.channelId = ch ∧ r.userId = us) with
      | some dbUser =>
        let needUpd := (currentUserName ≠ "" ∧ dbUser.userName ≠ currentUserName)
          ∨ (currentChannelName ≠ "" ∧ dbUser.channelName ≠ currentChannelName)
        let newUN := if needUpd then currentUserName else dbUser.userName
        let newCN := if needUpd then currentChannelName else dbUser.channelName
        let store' :=
          if needUpd then
            { s.store with userRows := s.store.userRows.map (fun r =>
                if r.uid = dbUser.uid then { r with userName := currentUserName, channelName := currentChannelName } else r) }
          else s.store
        (some dbUser.uid,
          { s with store := store',
                   userCache := mapSet s.userCache (ch, us) ⟨dbUser.uid, newUN, newCN⟩ })
      | none =>
        let uid := s.store.userRows.length + 1
        (some uid,
          { s with store := { s.store with userRows := s.store.userRows ++ [⟨uid, ch, us, currentChannelName, currentUserName⟩] },
                   userCache := mapSet s.userCache (ch, us) ⟨uid, currentUserName, currentChannelName⟩ })
    else
      (none, { s with log := s.log ++ ["创建或获取用户失败:"] })

/-- The loop updating the message-type and hourly-rank buffers, one
iteration per element type of `new Set(elements.map(e => e.type))`: the
message accumulator gets `count + 1` and its timestamp overwritten, the
rank accumulator gets `count + 1` with the bucket start kept. -/
def foldTypes (uid messageTime hourStart : Nat) :
    List String → List ((Nat × String) × MsgEntry) → List ((Nat × Nat × String) × RankEntry) →
    List ((Nat × String) × MsgEntry) × List ((Nat × Nat × String) × RankEntry)
  | [], mb, rb => (mb, rb)
  | t :: ts, mb, rb =>
    let me := (mapGet mb (uid, t)).getD ⟨uid, t, 0, messageTime⟩
    let mb' := mapSet mb (uid, t) { me with count := me.count + 1, timestamp := messageTime }
    let re := (mapGet rb (uid, hourStart, t)).getD ⟨uid, hourStart, t, 0⟩
    let rb' := mapSet rb (uid, hourStart, t) { re with count := re.count + 1 }
    foldTypes uid messageTime hourStart ts mb' rb'

/-- The mention loop: one record per `at` element whose `attrs.id` is
truthy (present and non-empty) and differs from the sender's `userId`. -/
def whoAtRecords (uid : Nat) (us sanitized : String) (messageTime : Nat) :
    List Element → List AtRow
  | [] => []
  | e :: rest =>
    let targetId := e.attrs.id.getD ""
    if targetId ≠ "" ∧ targetId ≠ us then
      ⟨uid, targetId, sanitized, messageTime⟩ :: whoAtRecords uid us sanitized messageTime rest
    else whoAtRecords uid us sanitized messageTime rest

/-- The top-of-the-hour bucket containing the event
(`new Date(y, m, d, h)`), with hour windows aligned to the epoch. -/
def hourStartOf (t : Nat) : Nat := t - t % 3600000

/-- JavaScript `String.prototype.trim`: strip leading and trailing
whitespace. -/
def jsTrim (s : String) : String :=
  ⟨((s.data.dropWhile Char.isWhitespace).reverse.dropWhile Char.isWhitespace).reverse⟩

/-- `onMessage` under the sequential execution model.  Returns the new
state and whether the size-threshold drain fired during this fold.
`flushOk` is the `okCount` passed to an eager flush, should one fire. -/
def onMessage (cfg : Config) (s : CState) (sess : Sess) (guildName : Option String)
    (dbOk : Bool) (flushOk : Nat) : CState × Bool :=
  match sess.channelId, sess.userId with
  | some ch, some us =>
    if ch = "" ∨ us = "" ∨ jsTrim (sess.content.getD "") = "" then (s, false)
    else
      match resolveUser s ch us sess.username guildName dbOk with
      | (none, s') => (s', false)
      | (some uid, s1) =>
        let messageTime := sess.timestamp
        let s2 :=
          match sess.argv with
          | some cname =>
            let entry := (mapGet s1.cmdStatBuffer (uid, cname)).getD ⟨uid, cname, 0, messageTime⟩
            let entry' := { entry with count := entry.count + 1, timestamp := messageTime }
            { s1 with cmdStatBuffer := mapSet s1.cmdStatBuffer (uid, cname) entry' }
          | none => s1
        let types := dedupFirst (sess.elements.map Element.type)
        let folded := foldTypes uid messageTime (hourStartOf messageTime) types
          s2.msgStatBuffer s2.rankStatBuffer
        let s3 := { s2 with msgStatBuffer := folded.1, rankStatBuffer := folded.2 }
        let s4 :=
          if cfg.enableWhoAt then
            let sanitized := sanitizeContent (sess.elements.filter (fun e => ¬ e.type = "at"))
            { s3 with whoAtBuffer := s3.whoAtBuffer ++
                whoAtRecords uid us sanitized messageTime (sess.elements.filter (fun e => e.type = "at")) }
          else s3
        if cfg.enableOriRecord then
          let s5 := { s4 with oriCacheBuffer := s4.oriCacheBuffer ++
            [⟨uid, sanitizeContent sess.elements, messageTime⟩] }
          if Collector.BUFFER_THRESHOLD ≤ s5.oriCacheBuffer.length then
            (flushBuffers s5 flushOk, true)
          else (s5, false)
        else (s4, false)
  | _, _ => (s, false)

/-! ### Identity-resolver coalescing machine

Small-step model of the cache-miss path of `onMessage` (lines 69–106 of
`collector.ts`) for one fixed never-before-seen `(channelId, userId)` key,
under the JavaScript event loop: each synchronous segment between `await`s
is one atomic action, and any number of concurrent `onMessage` invocations
(callers) interleave at those points.

An async function body runs synchronously up to its first `await`, so the
caller that starts the resolution registers the pending promise in
`pendingUserRequests` before any other caller can run its own cache check:
starting is one atomic action that both issues the `database.get` and
installs the marker.  The body's `finally` deletes the marker in the same
synchronous segment in which the promise settles, so the marker is present
exactly while a resolution is in flight.

A resolution completing is recorded by appending its result (`some uid` on
success, `none` for the `catch` path returning `null`) to `history`; a
caller awaiting promise number `g` receives `history[g]` once it exists.
The guild lookup carries its own `.catch(() => null)` and therefore cannot
reject; the storage `get`/`set`/`create` awaits can fail, which the `ok`
flag of their actions controls.  The name-refresh write of the
existing-row path is the `adopt` await (taken whether or not the names
changed; a skipped write behaves as an immediately succeeding one). -/

namespace Resolver

inductive Phase where
  | waitGet
  | waitGuild (found : Option Nat)
  | waitAdopt (u : Nat)
  | waitCreate
  deriving DecidableEq, Repr

inductive CallerSt where
  | start
  | waiting (gen : Nat)
  | done (r : Option Nat)
  deriving DecidableEq, Repr

def CallerSt.isDone : CallerSt → Bool
  | .done _ => true
  | _ => false

structure St where
  cache : Option Nat
  inflight : Option Phase
  rows : List Nat
  history : List (Option Nat)
  callers : List CallerSt
  failLog : Nat
  deriving DecidableEq, Repr

inductive Act where
  | check (i : Nat)
  | stepGet (ok : Bool)
  | stepGuild
  | stepAdopt (ok : Bool)
  | stepCreate (ok : Bool)
  | deliver (i : Nat)
  deriving DecidableEq, Repr

/-- Whether the action models a storage operation that throws. -/
def Act.isFail : Act → Bool
  | .stepGet ok => !ok
  | .stepAdopt ok => !ok
  | .stepCreate ok => !ok
  | _ => false

def step (s : St) (a : Act) : St :=
  match a with
  | .check i =>
    match s.callers.get? i with
    | some .start =>
      match s.cache with
      | some u => { s with callers := s.callers.set i (.done (some u)) }
      | none =>
        match s.inflight with
        | some _ => { s with callers := s.callers.set i (.waiting s.history.length) }
        | none => { s with callers := s.callers.set i (.waiting s.history.length),
                           inflight := some .waitGet }
    | _ => s
  | .stepGet ok =>
    match s.inflight with
    | some .waitGet =>
      if ok then { s with inflight := some (.waitGuild s.rows.head?) }
      else { s with inflight := none, history := s.history ++ [none], failLog := s.failLog + 1 }
    | _ => s
  | .stepGuild =>
    match s.inflight with
    | some (.waitGuild (some u)) => { s with inflight := some (.waitAdopt u) }
    | some (.waitGuild none) => { s with inflight := some .waitCreate }
    | _ => s
  | .stepAdopt ok =>
    match s.inflight with
    | some (.waitAdopt u) =>
      if ok then { s with inflight := none, cache := some u, history := s.history ++ [some u] }
      else { s with inflight := none, history := s.history ++ [none], failLog := s.failLog + 1 }
    | _ => s
  | .stepCreate ok =>
    match s.inflight with
    | some .waitCreate =>
      if ok then
        { s with inflight := none, rows := s.rows ++ [s.rows.length + 1],
                 cache := some (s.rows.length + 1),
                 history := s.history ++ [some (s.rows.length + 1)] }
      else { s with inflight := none, history := s.history ++ [none], failLog := s.failLog + 1 }
    | _ => s
  | .deliver i =>
    match s.callers.get? i with
    | some (.waiting g) =>
      if g < s.history.length then
        { s with callers := s.callers.set i (.done ((s.history.get? g).getD none)) }
      else s
    | _ => s

/-- Initial state for `K` concurrent requests on a never-before-seen key:
empty cache, no pending promise, no identity row. -/
def init (K : Nat) : St :=
  ⟨none, none, [], [], List.replicate K .start, 0⟩

def run (s : St) (acts : List Act) : St :=
  acts.foldl step s

end Resolver

/-! ### Counting, well-formedness and run definitions -/

/-- Total count attributed to one composite key in a list of rows (the sum
of the `count` columns of the rows with that key). -/
def listCnt {κ α : Type} [DecidableEq κ] (keyf : α → κ) (cntf : α → Nat) : List α → κ → Nat
  | [], _ => 0
  | a :: as, k => (if keyf a = k then cntf a else 0) + listCnt keyf cntf as k

def cmdKeyF (e : CmdEntry) : Nat × String := (e.uid, e.command)

def msgKeyF (e : MsgEntry) : Nat × String := (e.uid, e.type)

def rankKeyF (e : RankEntry) : Nat × Nat × String := (e.uid, e.timestamp, e.type)

/-- Count persisted in `analyse_cmd` for `(uid, command)`. -/
def cmdCount (rows : List CmdEntry) (u : Nat) (c : String) : Nat :=
  listCnt cmdKeyF CmdEntry.count rows (u, c)

/-- Count persisted in `analyse_msg` for `(uid, type)`. -/
def msgCount (rows : List MsgEntry) (u : Nat) (t : String) : Nat :=
  listCnt msgKeyF MsgEntry.count rows (u, t)

/-- Count persisted in `analyse_rank` for `(uid, bucket, type)`. -/
def rankCount (rows : List RankEntry) (u b : Nat) (t : String) : Nat :=
  listCnt rankKeyF RankEntry.count rows (u, b, t)

/-- Count buffered for a key in the command buffer. -/
def bufCmdCount (m : List ((Nat × String) × CmdEntry)) (u : Nat) (c : String) : Nat :=
  ((mapGet m (u, c)).map CmdEntry.count).getD 0

def bufMsgCount (m : List ((Nat × String) × MsgEntry)) (u : Nat) (t : String) : Nat :=
  ((mapGet m (u, t)).map MsgEntry.count).getD 0

def bufRankCount (m : List ((Nat × Nat × String) × RankEntry)) (u b : Nat) (t : String) : Nat :=
  ((mapGet m (u, b, t)).map RankEntry.count).getD 0

/-- Committed-plus-buffered count for a command key: the quantity a
successful flush conserves. -/
def cmdTotal (s : CState) (u : Nat) (c : String) : Nat :=
  cmdCount s.store.cmdRows u c + bufCmdCount s.cmdStatBuffer u c

def msgTotal (s : CState) (u : Nat) (t : String) : Nat :=
  msgCount s.store.msgRows u t + bufMsgCount s.msgStatBuffer u t

def rankTotal (s : CState) (u b : Nat) (t : String) : Nat :=
  rankCount s.store.rankRows u b t + bufRankCount s.rankStatBuffer u b t

/-- A buffer map is sound when its keys are distinct (JS `Map` keys are)
and each accumulator record carries the components of its own key (the
fold always stores entries under the key built from their fields). -/
def BufConsist {κ α : Type} [DecidableEq κ] (keyf : α → κ) (m : List (κ × α)) : Prop :=
  (m.map Prod.fst).Nodup ∧ ∀ p ∈ m, keyf p.2 = p.1

/-- Events in a C1 run: a message event or an interval-timer flush. -/
inductive RunStep where
  | ev (sess : Sess)
  | flush
  deriving DecidableEq, Repr

/-- Configuration with both optional features off (the counter aggregates
are unconditional). -/
def cfgBare : Config := ⟨false, false⟩

/-- Execution of a sequence of events and interval flushes, all storage
operations succeeding. -/
def runSteps (s : CState) : List RunStep → CState
  | [] => s
  | .ev e :: rest => runSteps (onMessage cfgBare s e none true 5).1 rest
  | .flush :: rest => runSteps (flushBuffers s 5) rest

/-- A guard-passing event of the fixed sender `(ch, us)`. -/
def WfEv (ch us : String) (e : Sess) : Prop :=
  e.channelId = some ch ∧ e.userId = some us ∧ ¬ch = "" ∧ ¬us = ""
  ∧ ¬jsTrim (e.content.getD "") = ""

def WfStep (ch us : String) : RunStep → Prop
  | .ev e => WfEv ch us e
  | .flush => True

/-- Number of events in a run satisfying a predicate. -/
def countEv (p : Sess → Bool) : List RunStep → Nat
  | [] => 0
  | .ev e :: rest => (if p e then 1 else 0) + countEv p rest
  | .flush :: rest => countEv p rest

/-- State whose identity cache already holds the sender (a resolved
identity), with empty buffers and store. -/
def init1 (ch us : String) (uid : Nat) (un cn : String) : CState :=
  { userCache := [((ch, us), ⟨uid, un, cn⟩)] }

/-- Invariant carried along a C1 run. -/
def GoodS (ch us : String) (uid : Nat) (s : CState) : Prop :=
  (∃ u, mapGet s.userCache (ch, us) = some u ∧ u.uid = uid)
  ∧ BufConsist cmdKeyF s.cmdStatBuffer
  ∧ BufConsist msgKeyF s.msgStatBuffer
  ∧ BufConsist rankKeyF s.rankStatBuffer

/-! ### Concrete inputs used by witnesses and counterexamples -/

def cfgFull : Config := ⟨true, true⟩

def cfgWho : Config := ⟨false, true⟩

def sWit : CState := init1 "c" "u" 1 "" ""

def evPing (t : Nat) : Sess := ⟨some "c", some "u", some "hi", t, some "ping", none, [mkText "hi"]⟩

def sBufW : CState := (onMessage cfgBare sWit (evPing 5) none true 5).1

def evMention : Sess :=
  ⟨some "c", some "u", some "hi", 0, none, none,
    mkText "hi" :: List.replicate 100 ⟨"at", { id := some "42" }⟩⟩

def evFresh : Sess := ⟨some "chan1", some "u1", some "hello", 0, none, some "alice", [mkText "hello"]⟩

def wActs : List Resolver.Act :=
  [.check 0, .check 1, .stepGet true, .stepGuild, .stepCreate true, .deliver 0, .deliver 1]

namespace Resolver

/-- Soundness of the in-flight resolution phase against the created rows:
the `found` result of `database.get` reflects the rows present when it ran
(rows cannot change while a resolution is in flight, the only writer being
the in-flight resolution itself). -/
def InfOk : Option Phase → List Nat → Prop
  | none, _ => True
  | some .waitGet, _ => True
  | some (.waitGuild none), rows => rows = []
  | some (.waitGuild (some u)), rows => rows = [1] ∧ u = 1
  | some (.waitAdopt u), rows => rows = [1] ∧ u = 1
  | some .waitCreate, rows => rows = []

/-- Every successful resolution result names the unique created row. -/
def HistOk (rows : List Nat) (hist : List (Option Nat)) : Prop :=
  ∀ r ∈ hist, ∀ u, r = some u → rows = [1] ∧ u = 1

/-- Every finished caller observed either the unique row's handle or a
failure recorded in the history. -/
def CallersOk (rows : List Nat) (hist : List (Option Nat)) (cs : List CallerSt) : Prop :=
  (∀ c ∈ cs, ∀ u, c = .done (some u) → rows = [1] ∧ u = 1)
  ∧ (∀ c ∈ cs, c = .done none → none ∈ hist)

/-- Inductive invariant of the resolver machine. -/
def Inv (s : St) : Prop :=
  (s.rows = [] ∨ s.rows = [1])
  ∧ (∀ u, s.cache = some u → s.rows = [1] ∧ u = 1)
  ∧ InfOk s.inflight s.rows
  ∧ HistOk s.rows s.history
  ∧ CallersOk s.rows s.history s.callers

/-- No resolution has failed yet. -/
def cleanHist (s : St) : Prop := ∀ r ∈ s.history, r ≠ none

end Resolver

/-! ### Lemmas about the sanitizer -/

theorem concatStrs_append (l1 l2 : List String) :
    concatStrs (l1 ++ l2) = concatStrs l1 ++ concatStrs l2 := by
  induction l1 with
  | nil => simp [concatStrs]
  | cons a l ih => simp [concatStrs, ih, String.append_assoc]

theorem String.eq_empty_iff_data (s : String) : s = "" ↔ s.data = [] := by
  cases s with
  | mk l => simp [String.ext_iff]

theorem append_ne_empty_left (a b : String) (h : a ≠ "") : a ++ b ≠ "" := by
  intro hc
  apply h
  rw [String.eq_empty_iff_data] at hc ⊢
  rw [String.data_append] at hc
  exact (List.append_eq_nil.mp hc).1

theorem escChar_ne_empty (c : Char) : escChar c ≠ "" := by
  unfold escChar
  split
  · decide
  · split
    · decide
    · split
      · decide
      · intro hc
        have hd := congrArg String.data hc
        simp [String.singleton] at hd

theorem escapeHtml_ne_empty (s : String) (h : s ≠ "") : escapeHtml s ≠ "" := by
  cases s with
  | mk l =>
    cases l with
    | nil => exact absurd rfl h
    | cons c cs =>
      show escChar c ++ concatStrs (cs.map escChar) ≠ ""
      exact append_ne_empty_left _ _ (escChar_ne_empty c)

theorem escChar_benign (c : Char) (h1 : c ≠ '&') (h2 : c ≠ '<') (h3 : c ≠ '>') :
    escChar c = String.singleton c := by
  unfold escChar
  rw [if_neg h1, if_neg h2, if_neg h3]

theorem singleton_append_mk (c : Char) (l : List Char) :
    String.singleton c ++ String.mk l = String.mk (c :: l) := by
  apply String.ext
  rw [String.data_append]
  rfl

theorem escapeHtml_benign (s : String) (h : ∀ c ∈ s.data, c ≠ '&' ∧ c ≠ '<' ∧ c ≠ '>') :
    escapeHtml s = s := by
  cases s with
  | mk l =>
    induction l with
    | nil => rfl
    | cons c cs ih =>
      have hc := h c (by simp)
      have hrest : ∀ c' ∈ cs, c' ≠ '&' ∧ c' ≠ '<' ∧ c' ≠ '>' := fun c' hm => h c' (by simp [hm])
      show escChar c ++ concatStrs (cs.map escChar) = String.mk (c :: cs)
      have : concatStrs (cs.map escChar) = String.mk cs := ih hrest
      rw [this, escChar_benign c hc.1 hc.2.1 hc.2.2, singleton_append_mk]

theorem map_cons_concat (f : Element → String) (e : Element) (l : List Element) :
    concatStrs ((e :: l).map f) = f e ++ concatStrs (l.map f) := rfl

theorem sanitize_eq_specTokens (els : List Element) :
    sanitizeContent els = concatStrs (els.map specToken) := by
  induction els with
  | nil => rfl
  | cons e rest ih =>
    unfold sanitizeContent at ih ⊢
    show concatStrs ((transformElems (e :: rest)).map elemToString) = _
    rw [map_cons_concat specToken e rest]
    unfold transformElems
    cases h : sanitizeRule e.type e.attrs with
    | none =>
      show elemToString e ++ concatStrs ((transformElems rest).map elemToString) = _
      rw [ih]
      unfold specToken
      rw [h]
    | some r =>
      cases r with
      | none =>
        show concatStrs ((transformElems rest).map elemToString) = _
        rw [ih]
        unfold specToken
        rw [h]
        exact (String.empty_append _).symm
      | some str =>
        unfold specToken
        rw [h]
        show concatStrs ((toElementArray str ++ transformElems rest).map elemToString)
            = escapeHtml str ++ concatStrs (rest.map specToken)
        rw [List.map_append, concatStrs_append, ih]
        congr 1
        unfold toElementArray
        by_cases hs : str = ""
        · rw [if_pos hs, hs]
          rfl
        · rw [if_neg hs]
          show escapeHtml str ++ "" = escapeHtml str
          apply String.ext
          rw [String.data_append]
          simp

theorem specToken_ne_empty (e : Element) (h : e.type ≠ "text") : specToken e ≠ "" := by
  unfold specToken sanitizeRule
  rw [if_neg h]
  by_cases himg : e.type = "img"
  · rw [if_pos himg]
    show escapeHtml _ ≠ ""
    split <;> decide
  · rw [if_neg himg]
    by_cases hat : e.type = "at"
    · rw [if_pos hat]
      show escapeHtml ("[at:" ++ e.attrs.id.getD "undefined" ++ "]") ≠ ""
      apply escapeHtml_ne_empty
      exact append_ne_empty_left _ _ (append_ne_empty_left _ _ (by decide))
    · rw [if_neg hat]
      show elemToString e ≠ ""
      unfold elemToString
      rw [if_neg h]
      exact append_ne_empty_left _ "/>"
        (append_ne_empty_left _ (attrsString e.attrs)
          (append_ne_empty_left "<" e.type (by decide)))

/-! ### Association-list (JS Map) lemmas -/

theorem mapGet_cons {κ α : Type} [DecidableEq κ] (k1 : κ) (v1 : α)
    (rest : List (κ × α)) (k : κ) :
    mapGet ((k1, v1) :: rest) k = if k1 = k then some v1 else mapGet rest k := rfl

theorem mapGet_mapSet {κ α : Type} [DecidableEq κ] (m : List (κ × α)) (k k2 : κ) (v : α) :
    mapGet (mapSet m k v) k2 = if k = k2 then some v else mapGet m k2 := by
  induction m with
  | nil => rfl
  | cons p rest ih =>
    obtain ⟨k1, v1⟩ := p
    unfold mapSet
    by_cases h1 : k1 = k
    · rw [if_pos h1, mapGet_cons, mapGet_cons]
      subst h1
      by_cases h2 : k1 = k2 <;> simp [h2]
    · rw [if_neg h1, mapGet_cons, mapGet_cons]
      by_cases h2 : k1 = k2
      · have hk : ¬k = k2 := fun hc => h1 (h2.trans hc.symm)
        simp [h2, hk]
      · simp [h2, ih]

theorem mem_mapSet {κ α : Type} [DecidableEq κ] (m : List (κ × α)) (k : κ) (v : α)
    (p : κ × α) (h : p ∈ mapSet m k v) : p ∈ m ∨ p = (k, v) := by
  induction m with
  | nil =>
    unfold mapSet at h
    simp at h
    exact Or.inr h
  | cons q rest ih =>
    obtain ⟨k1, v1⟩ := q
    unfold mapSet at h
    by_cases h1 : k1 = k
    · rw [if_pos h1] at h
      rcases List.mem_cons.mp h with h2 | h2
      · exact Or.inr h2
      · exact Or.inl (List.mem_cons_of_mem _ h2)
    · rw [if_neg h1] at h
      rcases List.mem_cons.mp h with h2 | h2
      · exact Or.inl (h2 ▸ List.mem_cons_self _ _)
      · rcases ih h2 with h3 | h3
        · exact Or.inl (List.mem_cons_of_mem _ h3)
        · exact Or.inr h3

theorem mapSet_keys_mem {κ α : Type} [DecidableEq κ] (m : List (κ × α)) (k : κ) (v : α)
    (a : κ) (h : a ∈ (mapSet m k v).map Prod.fst) : a ∈ m.map Prod.fst ∨ a = k := by
  rcases List.mem_map.mp h with ⟨p, hp, hpa⟩
  rcases mem_mapSet m k v p hp with h2 | h2
  · exact Or.inl (hpa ▸ List.mem_map_of_mem Prod.fst h2)
  · subst h2
    exact Or.inr hpa.symm

theorem mapSet_nodup_keys {κ α : Type} [DecidableEq κ] (m : List (κ × α)) (k : κ) (v : α)
    (h : (m.map Prod.fst).Nodup) : ((mapSet m k v).map Prod.fst).Nodup := by
  induction m with
  | nil => simp [mapSet]
  | cons q rest ih =>
    obtain ⟨k1, v1⟩ := q
    rw [List.map_cons, List.nodup_cons] at h
    unfold mapSet
    by_cases h1 : k1 = k
    · rw [if_pos h1, List.map_cons, List.nodup_cons]
      exact ⟨h1 ▸ h.1, h.2⟩
    · rw [if_neg h1, List.map_cons, List.nodup_cons]
      refine ⟨fun hc => ?_, ih h.2⟩
      rcases mapSet_keys_mem rest k v k1 hc with h2 | h2
      · exact h.1 h2
      · exact h1 h2

theorem mapGet_none_of_not_mem {κ α : Type} [DecidableEq κ] (m : List (κ × α)) (k : κ)
    (h : ¬k ∈ m.map Prod.fst) : mapGet m k = none := by
  induction m with
  | nil => rfl
  | cons q rest ih =>
    obtain ⟨k1, v1⟩ := q
    rw [List.map_cons] at h
    rw [mapGet_cons]
    rw [if_neg (fun hc : k1 = k => h (hc ▸ List.mem_cons_self _ _))]
    exact ih (fun hc => h (List.mem_cons_of_mem _ hc))

theorem bufConsist_mapSet {κ α : Type} [DecidableEq κ] (keyf : α → κ)
    (m : List (κ × α)) (k : κ) (v : α) (hm : BufConsist keyf m) (hv : keyf v = k) :
    BufConsist keyf (mapSet m k v) := by
  refine ⟨mapSet_nodup_keys m k v hm.1, fun p hp => ?_⟩
  rcases mem_mapSet m k v p hp with h | h
  · exact hm.2 p h
  · subst h
    exact hv

theorem listCnt_values {κ α : Type} [DecidableEq κ] (keyf : α → κ) (cntf : α → Nat)
    (m : List (κ × α)) (k : κ) (hm : BufConsist keyf m) :
    listCnt keyf cntf (m.map Prod.snd) k = ((mapGet m k).map cntf).getD 0 := by
  induction m with
  | nil => rfl
  | cons q rest ih =>
    obtain ⟨k1, v1⟩ := q
    obtain ⟨hnd, hco⟩ := hm
    rw [List.map_cons, List.nodup_cons] at hnd
    have hk1 : keyf v1 = k1 := hco ⟨k1, v1⟩ (List.mem_cons_self _ _)
    have hrest : BufConsist keyf rest := ⟨hnd.2, fun p hp => hco p (List.mem_cons_of_mem _ hp)⟩
    rw [List.map_cons]
    unfold listCnt mapGet
    by_cases h1 : k1 = k
    · rw [if_pos (hk1.trans h1), if_pos h1]
      have hnone : mapGet rest k = none := by
        apply mapGet_none_of_not_mem
        intro hc
        exact hnd.1 (h1 ▸ hc)
      have : listCnt keyf cntf (rest.map Prod.snd) k = 0 := by
        rw [ih hrest, hnone]
        rfl
      rw [this]
      simp
    · rw [if_neg (fun hc : keyf v1 = k => h1 (hk1.symm.trans hc)), if_neg h1, ih hrest]
      simp

/-! ### Upsert and commit lemmas -/

theorem listCnt_upsertCmd (rows : List CmdEntry) (item : CmdEntry) (k : Nat × String) :
    cmdCount (upsertCmdRow rows item) k.1 k.2
      = cmdCount rows k.1 k.2 + (if cmdKeyF item = k then item.count else 0) := by
  unfold cmdCount
  induction rows with
  | nil =>
    unfold upsertCmdRow listCnt
    simp [listCnt]
  | cons r rs ih =>
    unfold upsertCmdRow
    by_cases h : r.uid = item.uid ∧ r.command = item.command
    · rw [if_pos h]
      have hkeys : cmdKeyF r = cmdKeyF item := by
        unfold cmdKeyF
        rw [h.1, h.2]
      unfold listCnt
      have hhead : cmdKeyF { item with count := r.count + item.count } = cmdKeyF item := rfl
      by_cases h2 : cmdKeyF item = k
      · rw [hhead, if_pos h2, if_pos (hkeys.trans h2), if_pos h2]
        show r.count + item.count + listCnt cmdKeyF CmdEntry.count rs k
          = r.count + listCnt cmdKeyF CmdEntry.count rs k + item.count
        omega
      · rw [hhead, if_neg h2, if_neg (fun hc => h2 (hkeys ▸ hc)), if_neg h2]
        omega
    · rw [if_neg h]
      unfold listCnt
      rw [ih]
      omega

theorem listCnt_upsertMsg (rows : List MsgEntry) (item : MsgEntry) (k : Nat × String) :
    msgCount (upsertMsgRow rows item) k.1 k.2
      = msgCount rows k.1 k.2 + (if msgKeyF item = k then item.count else 0) := by
  unfold msgCount
  induction rows with
  | nil =>
    unfold upsertMsgRow listCnt
    simp [listCnt]
  | cons r rs ih =>
    unfold upsertMsgRow
    by_cases h : r.uid = item.uid ∧ r.type = item.type
    · rw [if_pos h]
      have hkeys : msgKeyF r = msgKeyF item := by
        unfold msgKeyF
        rw [h.1, h.2]
      unfold listCnt
      have hhead : msgKeyF { item with count := r.count + item.count } = msgKeyF item := rfl
      by_cases h2 : msgKeyF item = k
      · rw [hhead, if_pos h2, if_pos (hkeys.trans h2), if_pos h2]
        show r.count + item.count + listCnt msgKeyF MsgEntry.count rs k
          = r.count + listCnt msgKeyF MsgEntry.count rs k + item.count
        omega
      · rw [hhead, if_neg h2, if_neg (fun hc => h2 (hkeys ▸ hc)), if_neg h2]
        omega
    · rw [if_neg h]
      unfold listCnt
      rw [ih]
      omega

theorem listCnt_upsertRank (rows : List RankEntry) (item : RankEntry) (k : Nat × Nat × String) :
    rankCount (upsertRankRow rows item) k.1 k.2.1 k.2.2
      = rankCount rows k.1 k.2.1 k.2.2 + (if rankKeyF item = k then item.count else 0) := by
  unfold rankCount
  induction rows with
  | nil =>
    unfold upsertRankRow listCnt
    simp [listCnt]
  | cons r rs ih =>
    unfold upsertRankRow
    by_cases h : r.uid = item.uid ∧ r.timestamp = item.timestamp ∧ r.type = item.type
    · rw [if_pos h]
      have hkeys : rankKeyF r = rankKeyF item := by
        unfold rankKeyF
        rw [h.1, h.2.1, h.2.2]
      unfold listCnt
      have hhead : rankKeyF { item with count := r.count + item.count } = rankKeyF item := rfl
      by_cases h2 : rankKeyF item = k
      · rw [hhead, if_pos h2, if_pos (hkeys.trans h2), if_pos h2]
        show r.count + item.count + listCnt rankKeyF RankEntry.count rs k
          = r.count + listCnt rankKeyF RankEntry.count rs k + item.count
        omega
      · rw [hhead, if_neg h2, if_neg (fun hc => h2 (hkeys ▸ hc)), if_neg h2]
        omega
    · rw [if_neg h]
      unfold listCnt
      rw [ih]
      omega

theorem commitCmd_cnt (items rows : List CmdEntry) (k : Nat × String) :
    cmdCount (commitCmd rows items) k.1 k.2
      = cmdCount rows k.1 k.2 + listCnt cmdKeyF CmdEntry.count items k := by
  induction items generalizing rows with
  | nil => simp [commitCmd, listCnt]
  | cons i is ih =>
    show cmdCount (commitCmd (upsertCmdRow rows i) is) k.1 k.2 = _
    rw [ih, listCnt_upsertCmd]
    have hstep : listCnt cmdKeyF CmdEntry.count (i :: is) k
        = (if cmdKeyF i = k then CmdEntry.count i else 0) + listCnt cmdKeyF CmdEntry.count is k := rfl
    rw [hstep]
    omega

theorem commitMsg_cnt (items rows : List MsgEntry) (k : Nat × String) :
    msgCount (commitMsg rows items) k.1 k.2
      = msgCount rows k.1 k.2 + listCnt msgKeyF MsgEntry.count items k := by
  induction items generalizing rows with
  | nil => simp [commitMsg, listCnt]
  | cons i is ih =>
    show msgCount (commitMsg (upsertMsgRow rows i) is) k.1 k.2 = _
    rw [ih, listCnt_upsertMsg]
    have hstep : listCnt msgKeyF MsgEntry.count (i :: is) k
        = (if msgKeyF i = k then MsgEntry.count i else 0) + listCnt msgKeyF MsgEntry.count is k := rfl
    rw [hstep]
    omega

theorem commitRank_cnt (items rows : List RankEntry) (k : Nat × Nat × String) :
    rankCount (commitRank rows items) k.1 k.2.1 k.2.2
      = rankCount rows k.1 k.2.1 k.2.2 + listCnt rankKeyF RankEntry.count items k := by
  induction items generalizing rows with
  | nil => simp [commitRank, listCnt]
  | cons i is ih =>
    show rankCount (commitRank (upsertRankRow rows i) is) k.1 k.2.1 k.2.2 = _
    rw [ih, listCnt_upsertRank]
    have hstep : listCnt rankKeyF RankEntry.count (i :: is) k
        = (if rankKeyF i = k then RankEntry.count i else 0) + listCnt rankKeyF RankEntry.count is k := rfl
    rw [hstep]
    omega

/-! ### Flush lemmas -/

theorem flushAtts_len (a : List CmdEntry) (b : List MsgEntry) (c : List RankEntry)
    (d : List AtRow) (e : List CacheRow) : (flushAtts a b c d e).length ≤ 5 := by
  unfold flushAtts
  split <;> split <;> split <;> split <;> split <;> simp

theorem foldl_flushAtts_cmd (a : List CmdEntry) (b : List MsgEntry) (c : List RankEntry)
    (d : List AtRow) (e : List CacheRow) (st : Store) :
    ((flushAtts a b c d e).foldl (fun x f => f x) st).cmdRows = commitCmd st.cmdRows a := by
  unfold flushAtts
  split <;> split <;> split <;> split <;> split <;>
    simp_all [List.isEmpty_iff, commitCmd]

theorem foldl_flushAtts_msg (a : List CmdEntry) (b : List MsgEntry) (c : List RankEntry)
    (d : List AtRow) (e : List CacheRow) (st : Store) :
    ((flushAtts a b c d e).foldl (fun x f => f x) st).msgRows = commitMsg st.msgRows b := by
  unfold flushAtts
  split <;> split <;> split <;> split <;> split <;>
    simp_all [List.isEmpty_iff, commitMsg]

theorem foldl_flushAtts_rank (a : List CmdEntry) (b : List MsgEntry) (c : List RankEntry)
    (d : List AtRow) (e : List CacheRow) (st : Store) :
    ((flushAtts a b c d e).foldl (fun x f => f x) st).rankRows = commitRank st.rankRows c := by
  unfold flushAtts
  split <;> split <;> split <;> split <;> split <;>
    simp_all [List.isEmpty_iff, commitRank]

theorem flush_success_store (s : CState) (k : Nat) (hk : 5 ≤ k) :
    (flushBuffers s k).store.cmdRows = commitCmd s.store.cmdRows (s.cmdStatBuffer.map Prod.snd)
    ∧ (flushBuffers s k).store.msgRows = commitMsg s.store.msgRows (s.msgStatBuffer.map Prod.snd)
    ∧ (flushBuffers s k).store.rankRows
        = commitRank s.store.rankRows (s.rankStatBuffer.map Prod.snd) := by
  have hlen := flushAtts_len (s.cmdStatBuffer.map Prod.snd) (s.msgStatBuffer.map Prod.snd)
    (s.rankStatBuffer.map Prod.snd) s.whoAtBuffer s.oriCacheBuffer
  simp only [flushBuffers]
  rw [List.take_of_length_le (le_trans hlen hk)]
  exact ⟨foldl_flushAtts_cmd _ _ _ _ _ _, foldl_flushAtts_msg _ _ _ _ _ _,
    foldl_flushAtts_rank _ _ _ _ _ _⟩

theorem flush_clears (s : CState) (k : Nat) :
    (flushBuffers s k).cmdStatBuffer = [] ∧ (flushBuffers s k).msgStatBuffer = []
    ∧ (flushBuffers s k).rankStatBuffer = [] ∧ (flushBuffers s k).whoAtBuffer = []
    ∧ (flushBuffers s k).oriCacheBuffer = []
    ∧ (flushBuffers s k).userCache = s.userCache := by
  unfold flushBuffers
  exact ⟨rfl, rfl, rfl, rfl, rfl, rfl⟩

theorem flush_of_empty (s : CState) (k : Nat)
    (h1 : s.cmdStatBuffer = []) (h2 : s.msgStatBuffer = []) (h3 : s.rankStatBuffer = [])
    (h4 : s.whoAtBuffer = []) (h5 : s.oriCacheBuffer = []) : flushBuffers s k = s := by
  cases s
  simp_all [flushBuffers, flushAtts]

/-! ### onMessage lemmas (cache-hit path) -/

theorem onMessage_hit (s : CState) (sess : Sess) (ch us : String) (u : UserCache)
    (g : Option String) (db : Bool) (fo : Nat)
    (h1 : sess.channelId = some ch) (h2 : sess.userId = some us)
    (h3 : ¬ch = "") (h4 : ¬us = "") (h5 : ¬jsTrim (sess.content.getD "") = "")
    (hc : mapGet s.userCache (ch, us) = some u) :
    onMessage cfgBare s sess g db fo =
      ({ s with
          cmdStatBuffer :=
            match sess.argv with
            | some cname =>
              mapSet s.cmdStatBuffer (u.uid, cname)
                { (mapGet s.cmdStatBuffer (u.uid, cname)).getD ⟨u.uid, cname, 0, sess.timestamp⟩ with
                    count := ((mapGet s.cmdStatBuffer (u.uid, cname)).getD
                      ⟨u.uid, cname, 0, sess.timestamp⟩).count + 1,
                    timestamp := sess.timestamp }
            | none => s.cmdStatBuffer,
          msgStatBuffer := (foldTypes u.uid sess.timestamp (hourStartOf sess.timestamp)
            (dedupFirst (sess.elements.map Element.type)) s.msgStatBuffer s.rankStatBuffer).1,
          rankStatBuffer := (foldTypes u.uid sess.timestamp (hourStartOf sess.timestamp)
            (dedupFirst (sess.elements.map Element.type)) s.msgStatBuffer s.rankStatBuffer).2 },
        false) := by
  have hcond : ¬(ch = "" ∨ us = "" ∨ jsTrim (sess.content.getD "") = "") := by
    push_neg
    exact ⟨h3, h4, h5⟩
  simp only [onMessage, h1, h2, resolveUser, hc, if_neg hcond]
  cases harg : sess.argv <;> simp [cfgBare]

/-! ### dedupFirst and foldTypes lemmas -/

theorem dedupFirst_mem {α : Type} [DecidableEq α] (l : List α) (x : α) :
    x ∈ dedupFirst l ↔ x ∈ l := by
  induction l with
  | nil => rfl
  | cons a rest ih =>
    unfold dedupFirst
    constructor
    · intro h
      rcases List.mem_cons.mp h with h2 | h2
      · exact h2 ▸ List.mem_cons_self _ _
      · exact List.mem_cons_of_mem _ (ih.mp (List.mem_of_mem_filter h2))
    · intro h
      rcases List.mem_cons.mp h with h2 | h2
      · exact h2 ▸ List.mem_cons_self _ _
      · by_cases hx : x = a
        · exact hx ▸ List.mem_cons_self _ _
        · refine List.mem_cons_of_mem _ (List.mem_filter.mpr ⟨ih.mpr h2, ?_⟩)
          simp [hx]

theorem dedupFirst_nodup {α : Type} [DecidableEq α] (l : List α) : (dedupFirst l).Nodup := by
  induction l with
  | nil => exact List.nodup_nil
  | cons a rest ih =>
    unfold dedupFirst
    rw [List.nodup_cons]
    refine ⟨fun hc => ?_, List.Nodup.filter _ ih⟩
    have := (List.mem_filter.mp hc).2
    simp at this

theorem mapGet_mem {κ α : Type} [DecidableEq κ] (m : List (κ × α)) (k : κ) (v : α)
    (h : mapGet m k = some v) : (k, v) ∈ m := by
  induction m with
  | nil => exact absurd h (by simp [mapGet])
  | cons q rest ih =>
    obtain ⟨k1, v1⟩ := q
    rw [mapGet_cons] at h
    by_cases h1 : k1 = k
    · rw [if_pos h1] at h
      subst h1
      injection h with h2
      subst h2
      exact List.mem_cons_self _ _
    · rw [if_neg h1] at h
      exact List.mem_cons_of_mem _ (ih h)

theorem foldTypes_msg_cnt (uid mt hs : Nat) (ts : List String)
    (mb : List ((Nat × String) × MsgEntry)) (rb : List ((Nat × Nat × String) × RankEntry))
    (hnd : ts.Nodup) (u' : Nat) (t' : String) :
    bufMsgCount (foldTypes uid mt hs ts mb rb).1 u' t'
      = bufMsgCount mb u' t' + (if u' = uid ∧ t' ∈ ts then 1 else 0) := by
  induction ts generalizing mb rb with
  | nil => simp [foldTypes]
  | cons t rest ih =>
    rw [List.nodup_cons] at hnd
    unfold foldTypes
    rw [ih _ _ hnd.2]
    have hset : bufMsgCount (mapSet mb (uid, t)
        { (mapGet mb (uid, t)).getD ⟨uid, t, 0, mt⟩ with
            count := ((mapGet mb (uid, t)).getD ⟨uid, t, 0, mt⟩).count + 1,
            timestamp := mt }) u' t'
        = if (uid, t) = (u', t') then bufMsgCount mb uid t + 1 else bufMsgCount mb u' t' := by
      unfold bufMsgCount
      rw [mapGet_mapSet]
      by_cases hk : ((uid, t) : Nat × String) = (u', t')
      · rw [if_pos hk, if_pos hk]
        cases hget : mapGet mb (uid, t) <;> simp [hget]
      · rw [if_neg hk, if_neg hk]
    rw [hset]
    by_cases hu : u' = uid
    · by_cases ht : t' = t
      · subst hu
        subst ht
        rw [if_pos rfl]
        have : ¬(u' = u' ∧ t' ∈ rest) := fun hc => hnd.1 (hc.2)
        rw [if_neg this, if_pos ⟨rfl, List.mem_cons_self _ _⟩]
      · have hk : ¬((uid, t) : Nat × String) = (u', t') :=
          fun hc => ht (congrArg Prod.snd hc).symm
        rw [if_neg hk]
        have hmem : (t' ∈ t :: rest) ↔ (t' ∈ rest) := by
          constructor
          · intro h
            rcases List.mem_cons.mp h with h2 | h2
            · exact absurd h2 ht
            · exact h2
          · exact List.mem_cons_of_mem _
        by_cases hr : t' ∈ rest
        · rw [if_pos ⟨hu, hr⟩, if_pos ⟨hu, hmem.mpr hr⟩]
        · rw [if_neg (fun hc => hr hc.2), if_neg (fun hc => hr (hmem.mp hc.2))]
    · have hk : ¬((uid, t) : Nat × String) = (u', t') :=
        fun hc => hu (congrArg Prod.fst hc).symm
      rw [if_neg hk, if_neg (fun hc => hu hc.1), if_neg (fun hc => hu hc.1)]

theorem foldTypes_rank_cnt (uid mt hs : Nat) (ts : List String)
    (mb : List ((Nat × String) × MsgEntry)) (rb : List ((Nat × Nat × String) × RankEntry))
    (hnd : ts.Nodup) (u' b : Nat) (t' : String) :
    bufRankCount (foldTypes uid mt hs ts mb rb).2 u' b t'
      = bufRankCount rb u' b t' + (if u' = uid ∧ b = hs ∧ t' ∈ ts then 1 else 0) := by
  induction ts generalizing mb rb with
  | nil => simp [foldTypes]
  | cons t rest ih =>
    rw [List.nodup_cons] at hnd
    unfold foldTypes
    rw [ih _ _ hnd.2]
    have hset : bufRankCount (mapSet rb (uid, hs, t)
        { (mapGet rb (uid, hs, t)).getD ⟨uid, hs, t, 0⟩ with
            count := ((mapGet rb (uid, hs, t)).getD ⟨uid, hs, t, 0⟩).count + 1 }) u' b t'
        = if ((uid, hs, t) : Nat × Nat × String) = (u', b, t') then bufRankCount rb uid hs t + 1
          else bufRankCount rb u' b t' := by
      unfold bufRankCount
      rw [mapGet_mapSet]
      by_cases hk : ((uid, hs, t) : Nat × Nat × String) = (u', b, t')
      · rw [if_pos hk, if_pos hk]
        cases hget : mapGet rb (uid, hs, t) <;> simp [hget]
      · rw [if_neg hk, if_neg hk]
    rw [hset]
    by_cases hu : u' = uid
    · by_cases hb : b = hs
      · by_cases ht : t' = t
        · subst hu
          subst hb
          subst ht
          rw [if_pos rfl]
          have : ¬(u' = u' ∧ b = b ∧ t' ∈ rest) := fun hc => hnd.1 hc.2.2
          rw [if_neg this, if_pos ⟨rfl, rfl, List.mem_cons_self _ _⟩]
        · have hk : ¬((uid, hs, t) : Nat × Nat × String) = (u', b, t') :=
            fun hc => ht (congrArg (fun p => p.2.2) hc).symm
          rw [if_neg hk]
          by_cases hr : t' ∈ rest
          · rw [if_pos ⟨hu, hb, hr⟩, if_pos ⟨hu, hb, List.mem_cons_of_mem _ hr⟩]
          · rw [if_neg (fun hc => hr hc.2.2)]
            have : ¬(u' = uid ∧ b = hs ∧ t' ∈ t :: rest) := by
              intro hc
              rcases List.mem_cons.mp hc.2.2 with h2 | h2
              · exact ht h2
              · exact hr h2
            rw [if_neg this]
      · have hk : ¬((uid, hs, t) : Nat × Nat × String) = (u', b, t') :=
          fun hc => hb (congrArg (fun p => p.2.1) hc).symm
        rw [if_neg hk, if_neg (fun hc => hb hc.2.1), if_neg (fun hc => hb hc.2.1)]
    · have hk : ¬((uid, hs, t) : Nat × Nat × String) = (u', b, t') :=
        fun hc => hu (congrArg Prod.fst hc).symm
      rw [if_neg hk, if_neg (fun hc => hu hc.1), if_neg (fun hc => hu hc.1)]

theorem foldTypes_consist (uid mt hs : Nat) (ts : List String)
    (mb : List ((Nat × String) × MsgEntry)) (rb : List ((Nat × Nat × String) × RankEntry))
    (hm : BufConsist msgKeyF mb) (hr : BufConsist rankKeyF rb) :
    BufConsist msgKeyF (foldTypes uid mt hs ts mb rb).1
    ∧ BufConsist rankKeyF (foldTypes uid mt hs ts mb rb).2 := by
  induction ts generalizing mb rb with
  | nil => exact ⟨hm, hr⟩
  | cons t rest ih =>
    unfold foldTypes
    apply ih
    · apply bufConsist_mapSet msgKeyF mb _ _ hm
      cases hget : mapGet mb (uid, t) with
      | none => rfl
      | some e =>
        have := hm.2 _ (mapGet_mem mb _ _ hget)
        unfold msgKeyF at this ⊢
        simp at this ⊢
        exact this
    · apply bufConsist_mapSet rankKeyF rb _ _ hr
      cases hget : mapGet rb (uid, hs, t) with
      | none => rfl
      | some e =>
        have := hr.2 _ (mapGet_mem rb _ _ hget)
        unfold rankKeyF at this ⊢
        simp at this ⊢
        exact this

/-! ### Per-step conservation lemmas for C1 runs -/

theorem cmdFold_cnt (mb : List ((Nat × String) × CmdEntry)) (uid : Nat) (cname : String)
    (ts' : Nat) (u' : Nat) (c' : String) :
    bufCmdCount (mapSet mb (uid, cname)
      { (mapGet mb (uid, cname)).getD ⟨uid, cname, 0, ts'⟩ with
          count := ((mapGet mb (uid, cname)).getD ⟨uid, cname, 0, ts'⟩).count + 1,
          timestamp := ts' }) u' c'
      = bufCmdCount mb u' c' + (if u' = uid ∧ c' = cname then 1 else 0) := by
  unfold bufCmdCount
  rw [mapGet_mapSet]
  by_cases hk : ((uid, cname) : Nat × String) = (u', c')
  · rw [if_pos hk]
    have hu : u' = uid := (congrArg Prod.fst hk).symm
    have hc : c' = cname := (congrArg Prod.snd hk).symm
    rw [if_pos ⟨hu, hc⟩]
    have : mapGet mb (uid, cname) = mapGet mb (u', c') := by rw [hk]
    rw [this]
    cases hget : mapGet mb (u', c') <;> simp [hget]
  · rw [if_neg hk]
    have : ¬(u' = uid ∧ c' = cname) := by
      intro hc
      exact hk (by rw [hc.1, hc.2])
    rw [if_neg this]
    simp

theorem cmdFold_consist (mb : List ((Nat × String) × CmdEntry)) (uid : Nat) (cname : String)
    (ts' : Nat) (hm : BufConsist cmdKeyF mb) :
    BufConsist cmdKeyF (mapSet mb (uid, cname)
      { (mapGet mb (uid, cname)).getD ⟨uid, cname, 0, ts'⟩ with
          count := ((mapGet mb (uid, cname)).getD ⟨uid, cname, 0, ts'⟩).count + 1,
          timestamp := ts' }) := by
  apply bufConsist_mapSet cmdKeyF mb _ _ hm
  cases hget : mapGet mb (uid, cname) with
  | none => rfl
  | some e =>
    have := hm.2 _ (mapGet_mem mb _ _ hget)
    unfold cmdKeyF at this ⊢
    simp at this ⊢
    exact this

theorem onMessage_hit_proj (s : CState) (sess : Sess) (ch us : String) (u : UserCache)
    (g : Option String) (db : Bool) (fo : Nat)
    (h1 : sess.channelId = some ch) (h2 : sess.userId = some us)
    (h3 : ¬ch = "") (h4 : ¬us = "") (h5 : ¬jsTrim (sess.content.getD "") = "")
    (hc : mapGet s.userCache (ch, us) = some u) :
    (onMessage cfgBare s sess g db fo).1.store = s.store
    ∧ (onMessage cfgBare s sess g db fo).1.userCache = s.userCache
    ∧ (onMessage cfgBare s sess g db fo).2 = false
    ∧ (onMessage cfgBare s sess g db fo).1.cmdStatBuffer
        = (match sess.argv with
           | some cname =>
             mapSet s.cmdStatBuffer (u.uid, cname)
               { (mapGet s.cmdStatBuffer (u.uid, cname)).getD ⟨u.uid, cname, 0, sess.timestamp⟩ with
                   count := ((mapGet s.cmdStatBuffer (u.uid, cname)).getD
                     ⟨u.uid, cname, 0, sess.timestamp⟩).count + 1,
                   timestamp := sess.timestamp }
           | none => s.cmdStatBuffer)
    ∧ (onMessage cfgBare s sess g db fo).1.msgStatBuffer
        = (foldTypes u.uid sess.timestamp (hourStartOf sess.timestamp)
            (dedupFirst (sess.elements.map Element.type)) s.msgStatBuffer s.rankStatBuffer).1
    ∧ (onMessage cfgBare s sess g db fo).1.rankStatBuffer
        = (foldTypes u.uid sess.timestamp (hourStartOf sess.timestamp)
            (dedupFirst (sess.elements.map Element.type)) s.msgStatBuffer s.rankStatBuffer).2
    ∧ (onMessage cfgBare s sess g db fo).1.whoAtBuffer = s.whoAtBuffer
    ∧ (onMessage cfgBare s sess g db fo).1.oriCacheBuffer = s.oriCacheBuffer
    ∧ (onMessage cfgBare s sess g db fo).1.log = s.log := by
  rw [onMessage_hit s sess ch us u g db fo h1 h2 h3 h4 h5 hc]
  exact ⟨rfl, rfl, rfl, rfl, rfl, rfl, rfl, rfl, rfl⟩

theorem onMessage_ev_totals (s : CState) (sess : Sess) (ch us : String) (uid : Nat)
    (g : Option String) (db : Bool) (fo : Nat)
    (hw : WfEv ch us sess) (hg : GoodS ch us uid s) :
    GoodS ch us uid (onMessage cfgBare s sess g db fo).1
    ∧ (∀ c, cmdTotal (onMessage cfgBare s sess g db fo).1 uid c
        = cmdTotal s uid c + (if sess.argv = some c then 1 else 0))
    ∧ (∀ t, msgTotal (onMessage cfgBare s sess g db fo).1 uid t
        = msgTotal s uid t + (if t ∈ sess.elements.map Element.type then 1 else 0))
    ∧ (∀ b t, rankTotal (onMessage cfgBare s sess g db fo).1 uid b t
        = rankTotal s uid b t
          + (if hourStartOf sess.timestamp = b ∧ t ∈ sess.elements.map Element.type
             then 1 else 0)) := by
  obtain ⟨h1, h2, h3, h4, h5⟩ := hw
  obtain ⟨⟨u, hc, huid⟩, hbc, hbm, hbr⟩ := hg
  subst huid
  obtain ⟨pstore, pcache, pflag, pcmd, pmsg, prank, pat, pori, plog⟩ :=
    onMessage_hit_proj s sess ch us u g db fo h1 h2 h3 h4 h5 hc
  have hnd := dedupFirst_nodup (sess.elements.map Element.type)
  refine ⟨⟨⟨u, pcache ▸ hc, rfl⟩, ?_, ?_, ?_⟩, fun c => ?_, fun t => ?_, fun b t => ?_⟩
  · rw [pcmd]
    cases harg : sess.argv with
    | none => exact hbc
    | some cname => exact cmdFold_consist _ _ _ _ hbc
  · rw [pmsg]
    exact (foldTypes_consist _ _ _ _ _ _ hbm hbr).1
  · rw [prank]
    exact (foldTypes_consist _ _ _ _ _ _ hbm hbr).2
  · unfold cmdTotal
    rw [pstore, pcmd]
    cases harg : sess.argv with
    | none => simp
    | some cname =>
      rw [cmdFold_cnt s.cmdStatBuffer u.uid cname sess.timestamp u.uid c]
      by_cases hcn : c = cname
      · subst hcn
        rw [if_pos ⟨rfl, rfl⟩, if_pos rfl]
        omega
      · rw [if_neg (fun hq => hcn hq.2), if_neg (fun hq : some cname = some c => hcn (by
          injection hq with hq2
          exact hq2.symm))]
        omega
  · unfold msgTotal
    rw [pstore, pmsg]
    rw [foldTypes_msg_cnt u.uid sess.timestamp (hourStartOf sess.timestamp) _
      s.msgStatBuffer s.rankStatBuffer hnd u.uid t]
    by_cases hm : t ∈ sess.elements.map Element.type
    · rw [if_pos ⟨rfl, (dedupFirst_mem _ _).mpr hm⟩, if_pos hm]
      omega
    · rw [if_neg (fun hq => hm ((dedupFirst_mem _ _).mp hq.2)), if_neg hm]
      omega
  · unfold rankTotal
    rw [pstore, prank]
    rw [foldTypes_rank_cnt u.uid sess.timestamp (hourStartOf sess.timestamp) _
      s.msgStatBuffer s.rankStatBuffer hnd u.uid b t]
    by_cases hm : hourStartOf sess.timestamp = b ∧ t ∈ sess.elements.map Element.type
    · rw [if_pos ⟨rfl, hm.1.symm, (dedupFirst_mem _ _).mpr hm.2⟩, if_pos hm]
      omega
    · have : ¬(u.uid = u.uid ∧ b = hourStartOf sess.timestamp
          ∧ t ∈ dedupFirst (sess.elements.map Element.type)) := by
        intro hq
        exact hm ⟨hq.2.1.symm, (dedupFirst_mem _ _).mp hq.2.2⟩
      rw [if_neg this, if_neg hm]
      omega

theorem flush_totals (s : CState) (ch us : String) (uid : Nat) (hg : GoodS ch us uid s) :
    GoodS ch us uid (flushBuffers s 5)
    ∧ (∀ c, cmdTotal (flushBuffers s 5) uid c = cmdTotal s uid c)
    ∧ (∀ t, msgTotal (flushBuffers s 5) uid t = msgTotal s uid t)
    ∧ (∀ b t, rankTotal (flushBuffers s 5) uid b t = rankTotal s uid b t) := by
  obtain ⟨⟨u, hc, huid⟩, hbc, hbm, hbr⟩ := hg
  obtain ⟨e1, e2, e3, e4, e5, ecache⟩ := flush_clears s 5
  obtain ⟨t1, t2, t3⟩ := flush_success_store s 5 (le_refl 5)
  refine ⟨⟨⟨u, ecache ▸ hc, huid⟩, ?_, ?_, ?_⟩, fun c => ?_, fun t => ?_, fun b t => ?_⟩
  · rw [e1]
    exact ⟨List.nodup_nil, by simp⟩
  · rw [e2]
    exact ⟨List.nodup_nil, by simp⟩
  · rw [e3]
    exact ⟨List.nodup_nil, by simp⟩
  · unfold cmdTotal bufCmdCount
    rw [e1, t1, commitCmd_cnt _ _ ((uid, c) : Nat × String),
      listCnt_values cmdKeyF CmdEntry.count _ _ hbc]
    simp [mapGet, cmdCount]
  · unfold msgTotal bufMsgCount
    rw [e2, t2, commitMsg_cnt _ _ ((uid, t) : Nat × String),
      listCnt_values msgKeyF MsgEntry.count _ _ hbm]
    simp [mapGet, msgCount]
  · unfold rankTotal bufRankCount
    rw [e3, t3, commitRank_cnt _ _ ((uid, b, t) : Nat × Nat × String),
      listCnt_values rankKeyF RankEntry.count _ _ hbr]
    simp [mapGet, rankCount]

theorem runSteps_totals (ch us : String) (uid : Nat) (steps : List RunStep) :
    ∀ s : CState, GoodS ch us uid s → (∀ st ∈ steps, WfStep ch us st) →
    GoodS ch us uid (runSteps s steps)
    ∧ (∀ c, cmdTotal (runSteps s steps) uid c
        = cmdTotal s uid c + countEv (fun e => decide (e.argv = some c)) steps)
    ∧ (∀ t, msgTotal (runSteps s steps) uid t
        = msgTotal s uid t + countEv (fun e => decide (t ∈ e.elements.map Element.type)) steps)
    ∧ (∀ b t, rankTotal (runSteps s steps) uid b t
        = rankTotal s uid b t + countEv (fun e =>
            decide (hourStartOf e.timestamp = b ∧ t ∈ e.elements.map Element.type)) steps) := by
  induction steps with
  | nil =>
    intro s hg _
    exact ⟨hg, fun c => by simp [runSteps, countEv], fun t => by simp [runSteps, countEv],
      fun b t => by simp [runSteps, countEv]⟩
  | cons st rest ih =>
    intro s hg hw
    cases st with
    | ev e =>
      have hwe : WfEv ch us e := hw _ (List.mem_cons_self _ _)
      have hwrest : ∀ x ∈ rest, WfStep ch us x := fun x hx => hw _ (List.mem_cons_of_mem _ hx)
      obtain ⟨hg1, hcmd, hmsg, hrank⟩ := onMessage_ev_totals s e ch us uid none true 5 hwe hg
      obtain ⟨hg2, hcmd2, hmsg2, hrank2⟩ := ih _ hg1 hwrest
      refine ⟨hg2, fun c => ?_, fun t => ?_, fun b t => ?_⟩
      · show cmdTotal (runSteps (onMessage cfgBare s e none true 5).1 rest) uid c = _
        rw [hcmd2, hcmd c]
        have hcnt : countEv (fun e' => decide (e'.argv = some c)) (.ev e :: rest)
            = (if e.argv = some c then 1 else 0)
              + countEv (fun e' => decide (e'.argv = some c)) rest := by
          simp [countEv]
        rw [hcnt]
        omega
      · show msgTotal (runSteps (onMessage cfgBare s e none true 5).1 rest) uid t = _
        rw [hmsg2, hmsg t]
        have hcnt : countEv (fun e' => decide (t ∈ e'.elements.map Element.type)) (.ev e :: rest)
            = (if t ∈ e.elements.map Element.type then 1 else 0)
              + countEv (fun e' => decide (t ∈ e'.elements.map Element.type)) rest := by
          simp [countEv]
        rw [hcnt]
        omega
      · show rankTotal (runSteps (onMessage cfgBare s e none true 5).1 rest) uid b t = _
        rw [hrank2, hrank b t]
        have hcnt : countEv (fun e' =>
            decide (hourStartOf e'.timestamp = b ∧ t ∈ e'.elements.map Element.type))
            (.ev e :: rest)
            = (if hourStartOf e.timestamp = b ∧ t ∈ e.elements.map Element.type then 1 else 0)
              + countEv (fun e' =>
                  decide (hourStartOf e'.timestamp = b ∧ t ∈ e'.elements.map Element.type)) rest := by
          simp [countEv]
        rw [hcnt]
        omega
    | flush =>
      have hwrest : ∀ x ∈ rest, WfStep ch us x := fun x hx => hw _ (List.mem_cons_of_mem _ hx)
      obtain ⟨hg1, hcmd, hmsg, hrank⟩ := flush_totals s ch us uid hg
      obtain ⟨hg2, hcmd2, hmsg2, hrank2⟩ := ih _ hg1 hwrest
      refine ⟨hg2, fun c => ?_, fun t => ?_, fun b t => ?_⟩
      · show cmdTotal (runSteps (flushBuffers s 5) rest) uid c = _
        rw [hcmd2, hcmd c]
        rfl
      · show msgTotal (runSteps (flushBuffers s 5) rest) uid t = _
        rw [hmsg2, hmsg t]
        rfl
      · show rankTotal (runSteps (flushBuffers s 5) rest) uid b t = _
        rw [hrank2, hrank b t]
        rfl

theorem init1_good (ch us : String) (uid : Nat) (un cn : String) :
    GoodS ch us uid (init1 ch us uid un cn) := by
  refine ⟨⟨⟨uid, un, cn⟩, ?_, rfl⟩, ⟨List.nodup_nil, by simp [init1]⟩,
    ⟨List.nodup_nil, by simp [init1]⟩, ⟨List.nodup_nil, by simp [init1]⟩⟩
  rw [show (init1 ch us uid un cn).userCache = [((ch, us), ⟨uid, un, cn⟩)] from rfl,
    mapGet_cons, if_pos rfl]

/-! ### Resolver machine lemmas -/

namespace Resolver

theorem callersOk_set (rows : List Nat) (hist : List (Option Nat)) (cs : List CallerSt)
    (i : Nat) (v : CallerSt) (h : CallersOk rows hist cs)
    (hv1 : ∀ u, v = .done (some u) → rows = [1] ∧ u = 1)
    (hv2 : v = .done none → none ∈ hist) : CallersOk rows hist (cs.set i v) := by
  constructor
  · intro c hm u hc
    rcases List.mem_or_eq_of_mem_set hm with h2 | h2
    · exact h.1 c h2 u hc
    · exact hv1 u (h2 ▸ hc)
  · intro c hm hc
    rcases List.mem_or_eq_of_mem_set hm with h2 | h2
    · exact h.2 c h2 hc
    · exact hv2 (h2 ▸ hc)

theorem callersOk_histext (rows : List Nat) (hist : List (Option Nat)) (l : List (Option Nat))
    (cs : List CallerSt) (h : CallersOk rows hist cs) : CallersOk rows (hist ++ l) cs :=
  ⟨h.1, fun c hm hc => List.mem_append_left _ (h.2 c hm hc)⟩

theorem callersOk_of_rows_nil (rows' : List Nat) (hist hist' : List (Option Nat))
    (cs : List CallerSt) (h : CallersOk [] hist cs)
    (hsub : ∀ r ∈ hist, r ∈ hist') : CallersOk rows' hist' cs := by
  constructor
  · intro c hm u hc
    exact absurd (h.1 c hm u hc).1 (by simp)
  · intro c hm hc
    exact hsub _ (h.2 c hm hc)

theorem histOk_append (rows : List Nat) (hist : List (Option Nat)) (r : Option Nat)
    (h : HistOk rows hist) (hr : ∀ u, r = some u → rows = [1] ∧ u = 1) :
    HistOk rows (hist ++ [r]) := by
  intro x hm u hx
  rcases List.mem_append.mp hm with h2 | h2
  · exact h x h2 u hx
  · rw [List.mem_singleton.mp h2] at hx
    exact hr u hx

theorem histOk_of_rows_nil (rows' : List Nat) (hist : List (Option Nat))
    (h : HistOk [] hist) : HistOk rows' hist := by
  intro x hm u hx
  exact absurd (h x hm u hx).1 (by simp)

theorem inv_step (s : St) (a : Act) (h : Inv s) : Inv (step s a) := by
  obtain ⟨hrows, hcache, hinf, hhist, hcall⟩ := h
  cases a with
  | check i =>
    cases hget : s.callers.get? i with
    | none =>
      simp only [step, hget]
      exact ⟨hrows, hcache, hinf, hhist, hcall⟩
    | some cst =>
      cases cst with
      | waiting g =>
        simp only [step, hget]
        exact ⟨hrows, hcache, hinf, hhist, hcall⟩
      | done r =>
        simp only [step, hget]
        exact ⟨hrows, hcache, hinf, hhist, hcall⟩
      | start =>
        cases hc : s.cache with
        | some u =>
          simp only [step, hget, hc]
          refine ⟨hrows, ?_, hinf, hhist, callersOk_set _ _ _ _ _ hcall ?_ ?_⟩
          · intro u1 h1
            injection h1 with h2
            exact h2 ▸ hcache u hc
          · intro u' hv
            injection hv with hv2
            injection hv2 with hv3
            exact hv3 ▸ hcache u hc
          · intro hv
            injection hv with hv2
            exact Option.noConfusion hv2
        | none =>
          cases hi : s.inflight with
          | some ph =>
            simp only [step, hget, hc, hi]
            refine ⟨hrows, ?_, hi ▸ hinf, hhist, callersOk_set _ _ _ _ _ hcall ?_ ?_⟩
            · intro u1 h1
              exact Option.noConfusion h1
            · intro u' hv
              exact CallerSt.noConfusion hv
            · intro hv
              exact CallerSt.noConfusion hv
          | none =>
            simp only [step, hget, hc, hi]
            refine ⟨hrows, ?_, trivial, hhist, callersOk_set _ _ _ _ _ hcall ?_ ?_⟩
            · intro u1 h1
              exact Option.noConfusion h1
            · intro u' hv
              exact CallerSt.noConfusion hv
            · intro hv
              exact CallerSt.noConfusion hv
  | stepGet ok =>
    cases hi : s.inflight with
    | none =>
      simp only [step, hi]
      exact ⟨hrows, hcache, hinf, hhist, hcall⟩
    | some ph =>
      cases ph with
      | waitGuild f =>
        simp only [step, hi]
        exact ⟨hrows, hcache, hinf, hhist, hcall⟩
      | waitAdopt u =>
        simp only [step, hi]
        exact ⟨hrows, hcache, hinf, hhist, hcall⟩
      | waitCreate =>
        simp only [step, hi]
        exact ⟨hrows, hcache, hinf, hhist, hcall⟩
      | waitGet =>
        cases ok with
        | true =>
          simp only [step, hi]
          refine ⟨hrows, hcache, ?_, hhist, hcall⟩
          show InfOk (some (.waitGuild s.rows.head?)) s.rows
          rcases hrows with h0 | h1
          · rw [h0]
            exact rfl
          · rw [h1]
            exact ⟨rfl, rfl⟩
        | false =>
          simp only [step, hi]
          refine ⟨hrows, hcache, trivial, histOk_append _ _ _ hhist ?_,
            callersOk_histext _ _ _ _ hcall⟩
          intro u hu
          exact Option.noConfusion hu
  | stepGuild =>
    cases hi : s.inflight with
    | none =>
      simp only [step, hi]
      exact ⟨hrows, hcache, hinf, hhist, hcall⟩
    | some ph =>
      cases ph with
      | waitGet =>
        simp only [step, hi]
        exact ⟨hrows, hcache, hinf, hhist, hcall⟩
      | waitAdopt u =>
        simp only [step, hi]
        exact ⟨hrows, hcache, hinf, hhist, hcall⟩
      | waitCreate =>
        simp only [step, hi]
        exact ⟨hrows, hcache, hinf, hhist, hcall⟩
      | waitGuild f =>
        cases f with
        | some u =>
          rw [hi] at hinf
          simp only [step, hi]
          exact ⟨hrows, hcache, hinf, hhist, hcall⟩
        | none =>
          rw [hi] at hinf
          simp only [step, hi]
          exact ⟨hrows, hcache, hinf, hhist, hcall⟩
  | stepAdopt ok =>
    cases hi : s.inflight with
    | none =>
      simp only [step, hi]
      exact ⟨hrows, hcache, hinf, hhist, hcall⟩
    | some ph =>
      cases ph with
      | waitGet =>
        simp only [step, hi]
        exact ⟨hrows, hcache, hinf, hhist, hcall⟩
      | waitGuild f =>
        simp only [step, hi]
        exact ⟨hrows, hcache, hinf, hhist, hcall⟩
      | waitCreate =>
        simp only [step, hi]
        exact ⟨hrows, hcache, hinf, hhist, hcall⟩
      | waitAdopt u =>
        have hu : s.rows = [1] ∧ u = 1 := by
          rw [hi] at hinf
          exact hinf
        cases ok with
        | true =>
          simp only [step, hi]
          refine ⟨hrows, ?_, trivial, histOk_append _ _ _ hhist ?_,
            callersOk_histext _ _ _ _ hcall⟩
          · intro u' hc'
            injection hc' with h2
            exact h2 ▸ hu
          · intro u' hr'
            injection hr' with h2
            exact h2 ▸ hu
        | false =>
          simp only [step, hi]
          refine ⟨hrows, hcache, trivial, histOk_append _ _ _ hhist ?_,
            callersOk_histext _ _ _ _ hcall⟩
          intro u' hu'
          exact Option.noConfusion hu'
  | stepCreate ok =>
    cases hi : s.inflight with
    | none =>
      simp only [step, hi]
      exact ⟨hrows, hcache, hinf, hhist, hcall⟩
    | some ph =>
      cases ph with
      | waitGet =>
        simp only [step, hi]
        exact ⟨hrows, hcache, hinf, hhist, hcall⟩
      | waitGuild f =>
        simp only [step, hi]
        exact ⟨hrows, hcache, hinf, hhist, hcall⟩
      | waitAdopt u =>
        simp only [step, hi]
        exact ⟨hrows, hcache, hinf, hhist, hcall⟩
      | waitCreate =>
        have hemp : s.rows = [] := by
          rw [hi] at hinf
          exact hinf
        cases ok with
        | true =>
          have hrw : s.rows ++ [s.rows.length + 1] = [1] := by
            rw [hemp]
            rfl
          have hone : s.rows.length + 1 = 1 := by
            rw [hemp]
            rfl
          simp only [step, hi]
          refine ⟨Or.inr hrw, ?_, trivial, ?_, ?_⟩
          · intro u' hc'
            injection hc' with h2
            exact ⟨hrw, h2 ▸ hone⟩
          · apply histOk_append
            · exact histOk_of_rows_nil _ _ (hemp ▸ hhist)
            · intro u' hr'
              injection hr' with h2
              exact ⟨hrw, h2 ▸ hone⟩
          · apply callersOk_of_rows_nil _ s.history _ _ (hemp ▸ hcall)
            intro r hm
            exact List.mem_append_left _ hm
        | false =>
          simp only [step, hi]
          refine ⟨hrows, hcache, trivial, histOk_append _ _ _ hhist ?_,
            callersOk_histext _ _ _ _ hcall⟩
          intro u' hu'
          exact Option.noConfusion hu'
  | deliver i =>
    cases hget : s.callers.get? i with
    | none =>
      simp only [step, hget]
      exact ⟨hrows, hcache, hinf, hhist, hcall⟩
    | some cst =>
      cases cst with
      | start =>
        simp only [step, hget]
        exact ⟨hrows, hcache, hinf, hhist, hcall⟩
      | done r =>
        simp only [step, hget]
        exact ⟨hrows, hcache, hinf, hhist, hcall⟩
      | waiting g =>
        by_cases hlen : g < s.history.length
        · simp only [step, hget, if_pos hlen]
          refine ⟨hrows, hcache, hinf, hhist, callersOk_set _ _ _ _ _ hcall ?_ ?_⟩
          · intro u hv
            injection hv with h2
            cases hgq : s.history.get? g with
            | none =>
              rw [hgq] at h2
              exact Option.noConfusion h2
            | some r =>
              rw [hgq] at h2
              simp at h2
              exact hhist r (List.get?_mem hgq) u h2
          · intro hv
            injection hv with h2
            cases hgq : s.history.get? g with
            | none =>
              have := List.get?_eq_none.mp hgq
              omega
            | some r =>
              rw [hgq] at h2
              simp at h2
              exact h2 ▸ List.get?_mem hgq
        · simp only [step, hget, if_neg hlen]
          exact ⟨hrows, hcache, hinf, hhist, hcall⟩

end Resolver

namespace Resolver

theorem step_frame (s : St) (a : Act) :
    (step s a).callers.length = s.callers.length
    ∧ ((step s a).history = s.history
       ∨ ∃ r, (step s a).history = s.history ++ [r]
         ∧ (step s a).inflight = none ∧ (r = none → a.isFail = true)) := by
  cases a with
  | check i =>
    cases hget : s.callers.get? i with
    | none => exact ⟨by simp only [step, hget], Or.inl (by simp only [step, hget])⟩
    | some cst =>
      cases cst with
      | waiting g => exact ⟨by simp only [step, hget], Or.inl (by simp only [step, hget])⟩
      | done r => exact ⟨by simp only [step, hget], Or.inl (by simp only [step, hget])⟩
      | start =>
        cases hc : s.cache with
        | some u =>
          exact ⟨by simp only [step, hget, hc, List.length_set],
            Or.inl (by simp only [step, hget, hc])⟩
        | none =>
          cases hi : s.inflight with
          | some ph =>
            exact ⟨by simp only [step, hget, hc, hi, List.length_set],
              Or.inl (by simp only [step, hget, hc, hi])⟩
          | none =>
            exact ⟨by simp only [step, hget, hc, hi, List.length_set],
              Or.inl (by simp only [step, hget, hc, hi])⟩
  | stepGet ok =>
    cases hi : s.inflight with
    | none => exact ⟨by simp only [step, hi, if_true, if_false, Bool.false_eq_true], Or.inl (by simp only [step, hi, if_true, if_false, Bool.false_eq_true])⟩
    | some ph =>
      cases ph with
      | waitGuild f => exact ⟨by simp only [step, hi, if_true, if_false, Bool.false_eq_true], Or.inl (by simp only [step, hi, if_true, if_false, Bool.false_eq_true])⟩
      | waitAdopt u => exact ⟨by simp only [step, hi, if_true, if_false, Bool.false_eq_true], Or.inl (by simp only [step, hi, if_true, if_false, Bool.false_eq_true])⟩
      | waitCreate => exact ⟨by simp only [step, hi, if_true, if_false, Bool.false_eq_true], Or.inl (by simp only [step, hi, if_true, if_false, Bool.false_eq_true])⟩
      | waitGet =>
        cases ok with
        | true => exact ⟨by simp only [step, hi, if_true, if_false, Bool.false_eq_true], Or.inl (by simp only [step, hi, if_true, if_false, Bool.false_eq_true])⟩
        | false =>
          exact ⟨by simp only [step, hi, if_true, if_false, Bool.false_eq_true],
            Or.inr ⟨none, by simp only [step, hi, if_true, if_false, Bool.false_eq_true], by simp only [step, hi, if_true, if_false, Bool.false_eq_true], fun _ => rfl⟩⟩
  | stepGuild =>
    cases hi : s.inflight with
    | none => exact ⟨by simp only [step, hi, if_true, if_false, Bool.false_eq_true], Or.inl (by simp only [step, hi, if_true, if_false, Bool.false_eq_true])⟩
    | some ph =>
      cases ph with
      | waitGet => exact ⟨by simp only [step, hi, if_true, if_false, Bool.false_eq_true], Or.inl (by simp only [step, hi, if_true, if_false, Bool.false_eq_true])⟩
      | waitAdopt u => exact ⟨by simp only [step, hi, if_true, if_false, Bool.false_eq_true], Or.inl (by simp only [step, hi, if_true, if_false, Bool.false_eq_true])⟩
      | waitCreate => exact ⟨by simp only [step, hi, if_true, if_false, Bool.false_eq_true], Or.inl (by simp only [step, hi, if_true, if_false, Bool.false_eq_true])⟩
      | waitGuild f =>
        cases f with
        | some u => exact ⟨by simp only [step, hi, if_true, if_false, Bool.false_eq_true], Or.inl (by simp only [step, hi, if_true, if_false, Bool.false_eq_true])⟩
        | none => exact ⟨by simp only [step, hi, if_true, if_false, Bool.false_eq_true], Or.inl (by simp only [step, hi, if_true, if_false, Bool.false_eq_true])⟩
  | stepAdopt ok =>
    cases hi : s.inflight with
    | none => exact ⟨by simp only [step, hi, if_true, if_false, Bool.false_eq_true], Or.inl (by simp only [step, hi, if_true, if_false, Bool.false_eq_true])⟩
    | some ph =>
      cases ph with
      | waitGet => exact ⟨by simp only [step, hi, if_true, if_false, Bool.false_eq_true], Or.inl (by simp only [step, hi, if_true, if_false, Bool.false_eq_true])⟩
      | waitGuild f => exact ⟨by simp only [step, hi, if_true, if_false, Bool.false_eq_true], Or.inl (by simp only [step, hi, if_true, if_false, Bool.false_eq_true])⟩
      | waitCreate => exact ⟨by simp only [step, hi, if_true, if_false, Bool.false_eq_true], Or.inl (by simp only [step, hi, if_true, if_false, Bool.false_eq_true])⟩
      | waitAdopt u =>
        cases ok with
        | true =>
          exact ⟨by simp only [step, hi, if_true, if_false, Bool.false_eq_true],
            Or.inr ⟨some u, by simp only [step, hi, if_true, if_false, Bool.false_eq_true], by simp only [step, hi, if_true, if_false, Bool.false_eq_true],
              fun hn => Option.noConfusion hn⟩⟩
        | false =>
          exact ⟨by simp only [step, hi, if_true, if_false, Bool.false_eq_true],
            Or.inr ⟨none, by simp only [step, hi, if_true, if_false, Bool.false_eq_true], by simp only [step, hi, if_true, if_false, Bool.false_eq_true], fun _ => rfl⟩⟩
  | stepCreate ok =>
    cases hi : s.inflight with
    | none => exact ⟨by simp only [step, hi, if_true, if_false, Bool.false_eq_true], Or.inl (by simp only [step, hi, if_true, if_false, Bool.false_eq_true])⟩
    | some ph =>
      cases ph with
      | waitGet => exact ⟨by simp only [step, hi, if_true, if_false, Bool.false_eq_true], Or.inl (by simp only [step, hi, if_true, if_false, Bool.false_eq_true])⟩
      | waitGuild f => exact ⟨by simp only [step, hi, if_true, if_false, Bool.false_eq_true], Or.inl (by simp only [step, hi, if_true, if_false, Bool.false_eq_true])⟩
      | waitAdopt u => exact ⟨by simp only [step, hi, if_true, if_false, Bool.false_eq_true], Or.inl (by simp only [step, hi, if_true, if_false, Bool.false_eq_true])⟩
      | waitCreate =>
        cases ok with
        | true =>
          exact ⟨by simp only [step, hi, if_true, if_false, Bool.false_eq_true],
            Or.inr ⟨some (s.rows.length + 1), by simp only [step, hi, if_true, if_false, Bool.false_eq_true], by simp only [step, hi, if_true, if_false, Bool.false_eq_true],
              fun hn => Option.noConfusion hn⟩⟩
        | false =>
          exact ⟨by simp only [step, hi, if_true, if_false, Bool.false_eq_true],
            Or.inr ⟨none, by simp only [step, hi, if_true, if_false, Bool.false_eq_true], by simp only [step, hi, if_true, if_false, Bool.false_eq_true], fun _ => rfl⟩⟩
  | deliver i =>
    cases hget : s.callers.get? i with
    | none => exact ⟨by simp only [step, hget], Or.inl (by simp only [step, hget])⟩
    | some cst =>
      cases cst with
      | start => exact ⟨by simp only [step, hget], Or.inl (by simp only [step, hget])⟩
      | done r => exact ⟨by simp only [step, hget], Or.inl (by simp only [step, hget])⟩
      | waiting g =>
        by_cases hlen : g < s.history.length
        · exact ⟨by simp only [step, hget, if_pos hlen, List.length_set],
            Or.inl (by simp only [step, hget, if_pos hlen])⟩
        · exact ⟨by simp only [step, hget, if_neg hlen],
            Or.inl (by simp only [step, hget, if_neg hlen])⟩

theorem clean_step (s : St) (a : Act) (h : cleanHist s) (hf : a.isFail = false) :
    cleanHist (step s a) := by
  intro x hm
  rcases (step_frame s a).2 with h2 | ⟨r, hr, _, hrn⟩
  · rw [h2] at hm
    exact h x hm
  · rw [hr] at hm
    rcases List.mem_append.mp hm with h3 | h3
    · exact h x h3
    · rw [List.mem_singleton.mp h3]
      intro hx
      rw [hx] at hrn
      rw [hrn rfl] at hf
      exact Bool.noConfusion hf

theorem inv_run (s : St) (acts : List Act) (h : Inv s) : Inv (run s acts) := by
  induction acts generalizing s with
  | nil => exact h
  | cons a rest ih => exact ih _ (inv_step s a h)

theorem clean_run (s : St) (acts : List Act) (h : cleanHist s)
    (hf : ∀ a ∈ acts, a.isFail = false) : cleanHist (run s acts) := by
  induction acts generalizing s with
  | nil => exact h
  | cons a rest ih =>
    exact ih _ (clean_step s a h (hf a (List.mem_cons_self _ _)))
      (fun x hx => hf x (List.mem_cons_of_mem _ hx))

theorem len_run (s : St) (acts : List Act) : (run s acts).callers.length = s.callers.length := by
  induction acts generalizing s with
  | nil => rfl
  | cons a rest ih => exact (ih _).trans (step_frame s a).1

theorem inv_init (K : Nat) : Inv (init K) := by
  refine ⟨Or.inl rfl, ?_, trivial, ?_, ?_, ?_⟩
  · intro u hc
    exact Option.noConfusion hc
  · intro r hm
    exact absurd hm (List.not_mem_nil r)
  · intro c hm
    rcases List.eq_of_mem_replicate hm with h
    intro u hcd
    rw [h] at hcd
    exact CallerSt.noConfusion hcd
  · intro c hm hcd
    rcases List.eq_of_mem_replicate hm with h
    rw [h] at hcd
    exact CallerSt.noConfusion hcd

end Resolver

/-! ### Remaining support lemmas -/

theorem foldTypes_msg_get_notin (uid mt hs : Nat) (ts : List String)
    (mb : List ((Nat × String) × MsgEntry)) (rb : List ((Nat × Nat × String) × RankEntry))
    (u' : Nat) (t' : String) (ht : ¬t' ∈ ts) :
    mapGet (foldTypes uid mt hs ts mb rb).1 (u', t') = mapGet mb (u', t') := by
  induction ts generalizing mb rb with
  | nil => rfl
  | cons t rest ih =>
    unfold foldTypes
    rw [ih _ _ (fun hm => ht (List.mem_cons_of_mem _ hm)), mapGet_mapSet]
    have hne : ¬((uid, t) : Nat × String) = (u', t') := by
      intro hk
      have h2 : t = t' := congrArg Prod.snd hk
      refine ht ?_
      rw [← h2]
      exact List.mem_cons_self t rest
    rw [if_neg hne]

theorem foldTypes_msg_ts (uid mt hs : Nat) (ts : List String)
    (mb : List ((Nat × String) × MsgEntry)) (rb : List ((Nat × Nat × String) × RankEntry))
    (hnd : ts.Nodup) (t : String) (ht : t ∈ ts) :
    ((mapGet (foldTypes uid mt hs ts mb rb).1 (uid, t)).map MsgEntry.timestamp) = some mt := by
  induction ts generalizing mb rb with
  | nil => exact absurd ht (List.not_mem_nil t)
  | cons t0 rest ih =>
    rw [List.nodup_cons] at hnd
    unfold foldTypes
    by_cases h0 : t = t0
    · subst h0
      rw [foldTypes_msg_get_notin _ _ _ _ _ _ _ _ hnd.1, mapGet_mapSet, if_pos rfl]
      rfl
    · have hm : t ∈ rest := by
        rcases List.mem_cons.mp ht with h2 | h2
        · exact absurd h2 h0
        · exact h2
      exact ih _ _ hnd.2 hm

theorem whoAtRecords_filterMap (uid : Nat) (us san : String) (mt : Nat) (l : List Element) :
    whoAtRecords uid us san mt l
      = l.filterMap (fun e =>
          if e.attrs.id.getD "" ≠ "" ∧ e.attrs.id.getD "" ≠ us then
            some ⟨uid, e.attrs.id.getD "", san, mt⟩
          else none) := by
  induction l with
  | nil => rfl
  | cons e rest ih =>
    unfold whoAtRecords
    rw [List.filterMap_cons]
    by_cases hcond : e.attrs.id.getD "" ≠ "" ∧ e.attrs.id.getD "" ≠ us
    · rw [if_pos hcond]
      simp only [if_pos hcond]
      rw [ih]
    · rw [if_neg hcond]
      simp only [if_neg hcond]
      rw [ih]

namespace Resolver

theorem check_frame (t : St) (i : Nat) :
    (step t (.check i)).rows = t.rows
    ∧ (step t (.check i)).history = t.history
    ∧ (t.inflight.isSome = true → (step t (.check i)).inflight = t.inflight) := by
  cases hget : t.callers.get? i with
  | none =>
    exact ⟨by simp only [step, hget], by simp only [step, hget],
      fun _ => by simp only [step, hget]⟩
  | some cst =>
    cases cst with
    | waiting g =>
      exact ⟨by simp only [step, hget], by simp only [step, hget],
        fun _ => by simp only [step, hget]⟩
    | done r =>
      exact ⟨by simp only [step, hget], by simp only [step, hget],
        fun _ => by simp only [step, hget]⟩
    | start =>
      cases hc : t.cache with
      | some u =>
        exact ⟨by simp only [step, hget, hc], by simp only [step, hget, hc],
          fun _ => by simp only [step, hget, hc]⟩
      | none =>
        cases hi : t.inflight with
        | some ph =>
          exact ⟨by simp only [step, hget, hc, hi], by simp only [step, hget, hc, hi],
            fun _ => by simp only [step, hget, hc, hi]⟩
        | none =>
          refine ⟨by simp only [step, hget, hc, hi], by simp only [step, hget, hc, hi],
            fun hs => ?_⟩
          exact absurd hs (by simp)

theorem complete_clears_marker (t : St) (a : Act)
    (h : t.history.length < (step t a).history.length) : (step t a).inflight = none := by
  rcases (step_frame t a).2 with h2 | ⟨r, _, hin, _⟩
  · rw [h2] at h
    exact absurd h (lt_irrefl _)
  · exact hin

end Resolver

/-! ### Claim theorems -/

/-- C5 counterexample: the sanitizer maps an element of unrecognized kind
`video` to its XML serialization, not to a generic non-empty bracket marker
`[video]` (no default rule is registered, so `h.transform` keeps the
element and `Array.join` stringifies it). -/
theorem c5_unknown_kind_counterexample :
    sanitizeContent [⟨"video", {}⟩] = "<video/>"
    ∧ ¬sanitizeContent [⟨"video", {}⟩] = "[video]" := by
  exact ⟨by decide, by decide⟩

/-- C5 (amended): the sanitizer is a total stateless function yielding one
token per element: text elements contribute their (XML-escaped) text,
images a fixed `[img]` marker with a distinct `[gif]` marker for animated
images, mentions a tagged `[at:id]` marker, and every other element kind,
including unrecognized ones, is kept and serialized as a non-empty
XML-style `<type .../>` token rather than a `[type]` marker; text elements
with empty content contribute an empty token. -/
theorem c5_sanitizer_totality_amended (els : List Element) :
    sanitizeContent els = concatStrs (els.map specToken)
    ∧ ∀ e ∈ els, ¬e.type = "text" → ¬specToken e = "" :=
  ⟨sanitize_eq_specTokens els, fun e _ ht => specToken_ne_empty e ht⟩

/-- C5 witness: evaluation at a two-element message. -/
theorem c5_sanitizer_totality_witness :
    sanitizeContent [⟨"video", {}⟩, mkText "hi"]
      = concatStrs ([(⟨"video", {}⟩ : Element), mkText "hi"].map specToken)
    ∧ ¬specToken (⟨"video", {}⟩ : Element) = "" :=
  ⟨(c5_sanitizer_totality_amended [⟨"video", {}⟩, mkText "hi"]).1,
    (c5_sanitizer_totality_amended [⟨"video", {}⟩, mkText "hi"]).2 ⟨"video", {}⟩
      (by decide) (by decide)⟩

/-- C9 counterexample: a text-only message containing `<` does not round
trip: the transform re-wraps the rule's string result as a text node, and
stringification XML-escapes it. -/
theorem c9_roundtrip_counterexample :
    sanitizeContent [mkText "a<b"] = "a&lt;b"
    ∧ ¬sanitizeContent [mkText "a<b"] = "a<b" := by
  exact ⟨by decide, by decide⟩

/-- C9 (amended): sanitizing a message whose elements are all plain text
returns the concatenation of the texts with XML escaping applied to the
characters `&`, `<` and `>`; it equals the original concatenation exactly
when no such character occurs. -/
theorem c9_text_roundtrip_amended (texts : List String) :
    sanitizeContent (texts.map mkText) = concatStrs (texts.map escapeHtml)
    ∧ ((∀ t ∈ texts, ∀ c ∈ t.data, ¬c = '&' ∧ ¬c = '<' ∧ ¬c = '>')
       → sanitizeContent (texts.map mkText) = concatStrs texts) := by
  have h1 : sanitizeContent (texts.map mkText) = concatStrs (texts.map escapeHtml) := by
    rw [sanitize_eq_specTokens, List.map_map]
    congr 1
  refine ⟨h1, fun hben => ?_⟩
  rw [h1]
  have h2 : texts.map escapeHtml = texts := by
    conv_rhs => rw [← List.map_id texts]
    exact List.map_congr_left (fun t ht => escapeHtml_benign t (hben t ht))
  rw [h2]

/-- C9 witness: evaluation at a benign text. -/
theorem c9_text_roundtrip_witness :
    sanitizeContent (["hi"].map mkText) = concatStrs (["hi"].map escapeHtml)
    ∧ sanitizeContent (["hi"].map mkText) = concatStrs ["hi"] :=
  ⟨(c9_text_roundtrip_amended ["hi"]).1, (c9_text_roundtrip_amended ["hi"]).2 (by decide)⟩

/-- C7: an inbound event lacking a channel id, lacking a user id, or whose
content is empty or whitespace-only is dropped: the handler returns without
error and the whole collector state (buffers, identity cache, store, log)
is unchanged, and no eager drain fires. -/
theorem c7_malformed_dropped (cfg : Config) (s : CState) (sess : Sess)
    (g : Option String) (db : Bool) (fo : Nat)
    (h : sess.channelId = none ∨ sess.userId = none ∨ sess.channelId = some ""
      ∨ sess.userId = some "" ∨ jsTrim (sess.content.getD "") = "") :
    onMessage cfg s sess g db fo = (s, false) := by
  cases hch : sess.channelId with
  | none => simp only [onMessage, hch]
  | some ch =>
    cases hus : sess.userId with
    | none => simp only [onMessage, hch, hus]
    | some us =>
      have hg : ch = "" ∨ us = "" ∨ jsTrim (sess.content.getD "") = "" := by
        rcases h with h | h | h | h | h
        · rw [hch] at h
          exact Option.noConfusion h
        · rw [hus] at h
          exact Option.noConfusion h
        · rw [hch] at h
          injection h with h2
          exact Or.inl h2
        · rw [hus] at h
          injection h with h2
          exact Or.inr (Or.inl h2)
        · exact Or.inr (Or.inr h)
      simp only [onMessage, hch, hus, if_pos hg]

/-- C7 witness: a whitespace-only event leaves the state untouched. -/
theorem c7_malformed_dropped_witness :
    onMessage cfgBare sWit ⟨some "c", some "u", some "  ", 0, none, none, []⟩ none true 5
      = (sWit, false) :=
  c7_malformed_dropped cfgBare sWit ⟨some "c", some "u", some "  ", 0, none, none, []⟩
    none true 5 (by decide)

/-- C3: if a storage commit during a flush throws (fewer commits succeed
than are attempted), the flush logs the error and returns normally; the
counter-class snapshots (and the buffers generally) are discarded — the
live buffers come back empty, nothing is merged back, and a subsequent
flush of the resulting state is a no-op, so the lost deltas are never
re-applied. -/
theorem c3_flush_failure_discards (s : CState) (k : Nat)
    (hfail : k < (flushAtts (s.cmdStatBuffer.map Prod.snd) (s.msgStatBuffer.map Prod.snd)
      (s.rankStatBuffer.map Prod.snd) s.whoAtBuffer s.oriCacheBuffer).length) :
    (flushBuffers s k).cmdStatBuffer = []
    ∧ (flushBuffers s k).msgStatBuffer = []
    ∧ (flushBuffers s k).rankStatBuffer = []
    ∧ (flushBuffers s k).log = s.log ++ ["数据库刷写失败:"]
    ∧ (∀ k', flushBuffers (flushBuffers s k) k' = flushBuffers s k) := by
  obtain ⟨e1, e2, e3, e4, e5, _⟩ := flush_clears s k
  refine ⟨e1, e2, e3, ?_, fun k' => flush_of_empty _ _ e1 e2 e3 e4 e5⟩
  simp only [flushBuffers]
  rw [if_pos hfail]

/-- C3 witness: a flush whose first commit throws, on a state holding one
buffered command event. -/
theorem c3_flush_failure_witness :
    (flushBuffers sBufW 0).cmdStatBuffer = []
    ∧ (flushBuffers sBufW 0).log = sBufW.log ++ ["数据库刷写失败:"]
    ∧ flushBuffers (flushBuffers sBufW 0) 5 = flushBuffers sBufW 0 := by
  have h := c3_flush_failure_discards sBufW 0 (by decide)
  exact ⟨h.1, h.2.2.2.1, h.2.2.2.2 5⟩

/-- C4 counterexample: folding an event with timestamp 3 into a command key
whose accumulator holds timestamp 5 leaves the buffered timestamp 3, not
max(5, 3) = 5 — the fold overwrites rather than taking the maximum, so the
buffered timestamp depends on arrival order. -/
theorem c4_timestamp_counterexample :
    ((mapGet (onMessage cfgBare (onMessage cfgBare sWit (evPing 5) none true 5).1
        (evPing 3) none true 5).1.cmdStatBuffer (1, "ping")).map CmdEntry.timestamp)
      = some 3
    ∧ ¬((mapGet (onMessage cfgBare (onMessage cfgBare sWit (evPing 5) none true 5).1
        (evPing 3) none true 5).1.cmdStatBuffer (1, "ping")).map CmdEntry.timestamp)
      = some (max 5 3) := by
  exact ⟨by decide, by decide⟩

/-- C4 (amended): folding an event into a counter-buffer key overwrites the
accumulator's timestamp with the event's timestamp (last write wins), for
the command buffer and the message-type buffer alike, so the buffered
timestamp after folding a set of events is the last-arrived event's
timestamp and is order-dependent rather than max-resolved. -/
theorem c4_timestamp_last_write (s : CState) (sess : Sess) (ch us : String) (u : UserCache)
    (g : Option String) (db : Bool) (fo : Nat) (cname : String)
    (h1 : sess.channelId = some ch) (h2 : sess.userId = some us)
    (h3 : ¬ch = "") (h4 : ¬us = "") (h5 : ¬jsTrim (sess.content.getD "") = "")
    (hc : mapGet s.userCache (ch, us) = some u) (harg : sess.argv = some cname) :
    ((mapGet (onMessage cfgBare s sess g db fo).1.cmdStatBuffer (u.uid, cname)).map
      CmdEntry.timestamp) = some sess.timestamp
    ∧ ∀ t ∈ sess.elements.map Element.type,
        ((mapGet (onMessage cfgBare s sess g db fo).1.msgStatBuffer (u.uid, t)).map
          MsgEntry.timestamp) = some sess.timestamp := by
  obtain ⟨pstore, pcache, pflag, pcmd, pmsg, prank, pat, pori, plog⟩ :=
    onMessage_hit_proj s sess ch us u g db fo h1 h2 h3 h4 h5 hc
  constructor
  · rw [pcmd, harg]
    rw [mapGet_mapSet, if_pos rfl]
    rfl
  · intro t ht
    rw [pmsg]
    exact foldTypes_msg_ts u.uid sess.timestamp (hourStartOf sess.timestamp) _
      s.msgStatBuffer s.rankStatBuffer (dedupFirst_nodup _) t ((dedupFirst_mem _ _).mpr ht)

/-- C4 witness: evaluation at a concrete command event. -/
theorem c4_timestamp_last_write_witness :
    ((mapGet (onMessage cfgBare sWit (evPing 5) none true 5).1.cmdStatBuffer
      (1, "ping")).map CmdEntry.timestamp) = some 5 :=
  (c4_timestamp_last_write sWit (evPing 5) "c" "u" ⟨1, "", ""⟩ none true 5 "ping"
    (by decide) (by decide) (by decide) (by decide) (by decide) (by decide) (by decide)).1

/-- C6 counterexample: with the guild display-name lookup failing for a
never-seen pair, the created identity row's channel name is the empty
string, not the raw channel id, and nothing is logged. -/
theorem c6_fallback_counterexample :
    (onMessage cfgBare ({} : CState) evFresh none true 5).1.store.userRows
      = [⟨1, "chan1", "u1", "", "alice"⟩]
    ∧ ¬("" : String) = "chan1"
    ∧ (onMessage cfgBare ({} : CState) evFresh none true 5).1.log = ([] : List String) := by
  exact ⟨by decide, by decide, by decide⟩

/-- C6 (amended): if the guild display-name lookup fails during resolution
of an unseen pair, the resolver still creates the identity row — with the
empty string as channel display name and the session's username (not the
raw ids) as user name — the event is ingested (the cache is populated with
the new handle), and the lookup failure is silently swallowed rather than
logged; it is not retried. -/
theorem c6_resolver_fallback (s : CState) (sess : Sess) (ch us : String) (fo : Nat)
    (h1 : sess.channelId = some ch) (h2 : sess.userId = some us)
    (h3 : ¬ch = "") (h4 : ¬us = "") (h5 : ¬jsTrim (sess.content.getD "") = "")
    (hmiss : mapGet s.userCache (ch, us) = none)
    (hnorow : s.store.userRows.find? (fun r => r.channelId = ch ∧ r.userId = us) = none) :
    (onMessage cfgBare s sess none true fo).1.store.userRows
      = s.store.userRows
        ++ [⟨s.store.userRows.length + 1, ch, us, "", sess.username.getD ""⟩]
    ∧ mapGet (onMessage cfgBare s sess none true fo).1.userCache (ch, us)
        = some ⟨s.store.userRows.length + 1, sess.username.getD "", ""⟩
    ∧ (onMessage cfgBare s sess none true fo).1.log = s.log := by
  have hcond : ¬(ch = "" ∨ us = "" ∨ jsTrim (sess.content.getD "") = "") := by
    push_neg
    exact ⟨h3, h4, h5⟩
  simp only [onMessage, h1, h2, if_neg hcond, resolveUser, hmiss, hnorow]
  cases harg : sess.argv <;> simp [cfgBare, mapGet_mapSet]

/-- C6 witness: evaluation at a fresh pair with failed guild lookup. -/
theorem c6_resolver_fallback_witness :
    (onMessage cfgBare ({} : CState) evFresh none true 5).1.store.userRows
      = ([] : List UserRow) ++ [⟨0 + 1, "chan1", "u1", "", (some "alice").getD ""⟩]
    ∧ (onMessage cfgBare ({} : CState) evFresh none true 5).1.log = ([] : List String) := by
  have h := c6_resolver_fallback ({} : CState) evFresh "chan1" "u1" 5
    (by decide) (by decide) (by decide) (by decide) (by decide) (by decide) (by decide)
  exact ⟨h.1, h.2.2⟩

/-- C8 counterexample: an event carrying 100 mentions (with content caching
and mention recording both enabled) raises the pending append-only records
(mention records plus content-cache entries) past the threshold of 100, yet
no eager drain fires — the code checks only the content-cache buffer's
length. -/
theorem c8_threshold_counterexample :
    (onMessage cfgFull sWit evMention none true 5).2 = false
    ∧ Collector.BUFFER_THRESHOLD
        ≤ (onMessage cfgFull sWit evMention none true 5).1.whoAtBuffer.length
          + (onMessage cfgFull sWit evMention none true 5).1.oriCacheBuffer.length := by
  exact ⟨by decide, by decide⟩

/-- C8 (amended): a drain is triggered by the 60000 ms interval timer, or
eagerly during a fold exactly when content caching is enabled and the
content-cache buffer reaches the threshold of 100 entries after the fold;
pending mention records never trigger an eager drain. -/
theorem c8_drain_condition_amended (cfg : Config) (s : CState) (sess : Sess) (ch us : String)
    (u : UserCache) (g : Option String) (db : Bool) (fo : Nat)
    (h1 : sess.channelId = some ch) (h2 : sess.userId = some us)
    (h3 : ¬ch = "") (h4 : ¬us = "") (h5 : ¬jsTrim (sess.content.getD "") = "")
    (hc : mapGet s.userCache (ch, us) = some u) :
    Collector.FLUSH_INTERVAL = 60000
    ∧ Collector.BUFFER_THRESHOLD = 100
    ∧ ((onMessage cfg s sess g db fo).2 = true
        ↔ (cfg.enableOriRecord = true
          ∧ Collector.BUFFER_THRESHOLD ≤ s.oriCacheBuffer.length + 1)) := by
  refine ⟨rfl, rfl, ?_⟩
  have hcond : ¬(ch = "" ∨ us = "" ∨ jsTrim (sess.content.getD "") = "") := by
    push_neg
    exact ⟨h3, h4, h5⟩
  simp only [onMessage, h1, h2, if_neg hcond, resolveUser, hc]
  cases harg : sess.argv <;> cases hwa : cfg.enableWhoAt <;> cases hor : cfg.enableOriRecord <;>
    by_cases hthr : Collector.BUFFER_THRESHOLD ≤ s.oriCacheBuffer.length + 1 <;>
      simp [hwa, hor, hthr]

/-- C8 witness: an event folded with content caching off does not drain. -/
theorem c8_drain_condition_witness :
    Collector.FLUSH_INTERVAL = 60000
    ∧ Collector.BUFFER_THRESHOLD = 100
    ∧ ((onMessage cfgWho sWit (evPing 5) none true 5).2 = true
        ↔ (cfgWho.enableOriRecord = true
          ∧ Collector.BUFFER_THRESHOLD ≤ sWit.oriCacheBuffer.length + 1)) :=
  c8_drain_condition_amended cfgWho sWit (evPing 5) "c" "u" ⟨1, "", ""⟩ none true 5
    (by decide) (by decide) (by decide) (by decide) (by decide) (by decide)

/-- C10: with mention recording enabled, folding a message appends exactly
one mention record per `at` element that carries a non-empty target id
different from the sender's own user id (self-mentions and id-less mentions
are never recorded), and every record's content snippet is the message
sanitized after removing all mention elements. -/
theorem c10_mention_records (s : CState) (sess : Sess) (ch us : String) (u : UserCache)
    (g : Option String) (db : Bool) (fo : Nat)
    (h1 : sess.channelId = some ch) (h2 : sess.userId = some us)
    (h3 : ¬ch = "") (h4 : ¬us = "") (h5 : ¬jsTrim (sess.content.getD "") = "")
    (hc : mapGet s.userCache (ch, us) = some u) :
    (onMessage cfgWho s sess g db fo).1.whoAtBuffer
      = s.whoAtBuffer
        ++ (sess.elements.filter (fun e => e.type = "at")).filterMap (fun e =>
            if e.attrs.id.getD "" ≠ "" ∧ e.attrs.id.getD "" ≠ us then
              some ⟨u.uid, e.attrs.id.getD "",
                sanitizeContent (sess.elements.filter (fun e2 => ¬e2.type = "at")),
                sess.timestamp⟩
            else none) := by
  have hcond : ¬(ch = "" ∨ us = "" ∨ jsTrim (sess.content.getD "") = "") := by
    push_neg
    exact ⟨h3, h4, h5⟩
  simp only [onMessage, h1, h2, if_neg hcond, resolveUser, hc]
  cases harg : sess.argv <;> simp [cfgWho, whoAtRecords_filterMap]

/-- C10 witness: evaluation at a message with 100 identical mentions. -/
theorem c10_mention_records_witness :
    (onMessage cfgWho sWit evMention none true 5).1.whoAtBuffer
      = sWit.whoAtBuffer
        ++ (evMention.elements.filter (fun e => e.type = "at")).filterMap (fun e =>
            if e.attrs.id.getD "" ≠ "" ∧ e.attrs.id.getD "" ≠ "u" then
              some ⟨1, e.attrs.id.getD "",
                sanitizeContent (evMention.elements.filter (fun e2 => ¬e2.type = "at")),
                evMention.timestamp⟩
            else none) :=
  c10_mention_records sWit evMention "c" "u" ⟨1, "", ""⟩ none true 5
    (by decide) (by decide) (by decide) (by decide) (by decide) (by decide)

/-- C1: for every finite run of guard-passing events from one resolved
identity, however the events are ordered and however they are split across
flush cycles whose commits all succeed, the count persisted after a final
flush for each counter key — command usage `(uid, c)`, message type
`(uid, t)`, activity bucket `(uid, b, t)` — equals the number of events of
the run folding into that key; moreover each flush commits a buffered
delta by adding it to the existing row's count (a missing row counting as
0, the row's other columns overwritten), never by overwriting the count. -/
theorem c1_additive_commutative_counting (ch us un cn : String) (uid : Nat)
    (steps : List RunStep) (hw : ∀ st ∈ steps, WfStep ch us st) :
    (∀ c, cmdCount (flushBuffers (runSteps (init1 ch us uid un cn) steps) 5).store.cmdRows uid c
        = countEv (fun e => decide (e.argv = some c)) steps)
    ∧ (∀ t, msgCount (flushBuffers (runSteps (init1 ch us uid un cn) steps) 5).store.msgRows uid t
        = countEv (fun e => decide (t ∈ e.elements.map Element.type)) steps)
    ∧ (∀ b t, rankCount
          (flushBuffers (runSteps (init1 ch us uid un cn) steps) 5).store.rankRows uid b t
        = countEv (fun e =>
            decide (hourStartOf e.timestamp = b ∧ t ∈ e.elements.map Element.type)) steps)
    ∧ (∀ (rows : List CmdEntry) (item : CmdEntry) (v : Nat × String),
        cmdCount (upsertCmdRow rows item) v.1 v.2
          = cmdCount rows v.1 v.2 + (if cmdKeyF item = v then item.count else 0)) := by
  obtain ⟨hgF, hcmdF, hmsgF, hrankF⟩ :=
    runSteps_totals ch us uid steps (init1 ch us uid un cn) (init1_good ch us uid un cn) hw
  obtain ⟨fg, fcmd, fmsg, frank⟩ := flush_totals (runSteps (init1 ch us uid un cn) steps)
    ch us uid hgF
  obtain ⟨e1, e2, e3, _, _, _⟩ := flush_clears (runSteps (init1 ch us uid un cn) steps) 5
  refine ⟨fun c => ?_, fun t => ?_, fun b t => ?_, fun rows item v => listCnt_upsertCmd rows item v⟩
  · have h1 := fcmd c
    have h2 := hcmdF c
    have h0 : cmdTotal (init1 ch us uid un cn) uid c = 0 := rfl
    rw [h2, h0] at h1
    unfold cmdTotal at h1
    rw [e1] at h1
    have hb0 : bufCmdCount ([] : List ((Nat × String) × CmdEntry)) uid c = 0 := rfl
    rw [hb0] at h1
    omega
  · have h1 := fmsg t
    have h2 := hmsgF t
    have h0 : msgTotal (init1 ch us uid un cn) uid t = 0 := rfl
    rw [h2, h0] at h1
    unfold msgTotal at h1
    rw [e2] at h1
    have hb0 : bufMsgCount ([] : List ((Nat × String) × MsgEntry)) uid t = 0 := rfl
    rw [hb0] at h1
    omega
  · have h1 := frank b t
    have h2 := hrankF b t
    have h0 : rankTotal (init1 ch us uid un cn) uid b t = 0 := rfl
    rw [h2, h0] at h1
    unfold rankTotal at h1
    rw [e3] at h1
    have hb0 : bufRankCount ([] : List ((Nat × Nat × String) × RankEntry)) uid b t = 0 := rfl
    rw [hb0] at h1
    omega

/-- C1 witness: a `ping` command folded twice across two flush cycles
persists count 2 in one row. -/
theorem c1_additive_commutative_counting_witness :
    cmdCount (flushBuffers (runSteps (init1 "c" "u" 1 "" "")
        [RunStep.ev (evPing 5), RunStep.flush, RunStep.ev (evPing 3)]) 5).store.cmdRows 1 "ping"
      = countEv (fun e => decide (e.argv = some "ping"))
          [RunStep.ev (evPing 5), RunStep.flush, RunStep.ev (evPing 3)] :=
  (c1_additive_commutative_counting "c" "u" "" "" 1
    [RunStep.ev (evPing 5), RunStep.flush, RunStep.ev (evPing 3)]
    (by
      intro st hst
      fin_cases hst
      · exact ⟨rfl, rfl, by decide, by decide, by decide⟩
      · exact trivial
      · exact ⟨rfl, rfl, by decide, by decide, by decide⟩)).1 "ping"

/-- C2: on a never-before-seen pair, at most one identity row ever exists
in any interleaving of K concurrent resolution requests; when no storage
operation fails and every caller has completed, exactly one row was created
and all K callers observed the same handle; a request arriving while a
resolution is in flight leaves the rows, the result history and the
in-flight marker untouched (it awaits the pending promise instead of
issuing a second lookup or creation); and whenever a resolution completes
— successfully or not — the pending marker is removed. -/
theorem c2_concurrent_resolution_coalescing (K : Nat) (acts : List Resolver.Act) :
    (Resolver.run (Resolver.init K) acts).rows.length ≤ 1
    ∧ ((∀ a ∈ acts, a.isFail = false)
        → (∀ c ∈ (Resolver.run (Resolver.init K) acts).callers, c.isDone = true)
        → 1 ≤ K
        → (Resolver.run (Resolver.init K) acts).rows = [1]
          ∧ ∀ c ∈ (Resolver.run (Resolver.init K) acts).callers,
              c = Resolver.CallerSt.done (some 1))
    ∧ (∀ (t : Resolver.St) (i : Nat),
        (Resolver.step t (.check i)).rows = t.rows
        ∧ (Resolver.step t (.check i)).history = t.history
        ∧ (t.inflight.isSome = true → (Resolver.step t (.check i)).inflight = t.inflight))
    ∧ (∀ (t : Resolver.St) (a : Resolver.Act),
        t.history.length < (Resolver.step t a).history.length
        → (Resolver.step t a).inflight = none) := by
  have hinv := Resolver.inv_run (Resolver.init K) acts (Resolver.inv_init K)
  obtain ⟨hrows, hcache, hinf, hhist, hcall⟩ := hinv
  refine ⟨?_, ?_, Resolver.check_frame, Resolver.complete_clears_marker⟩
  · rcases hrows with h | h
    · rw [h]
      exact Nat.zero_le 1
    · rw [h]
      decide
  · intro hnf hdone hK
    have hclean := Resolver.clean_run (Resolver.init K) acts
      (fun r hm => absurd hm (List.not_mem_nil r)) hnf
    have hall : ∀ c ∈ (Resolver.run (Resolver.init K) acts).callers,
        c = Resolver.CallerSt.done (some 1) := by
      intro c hm
      have hd := hdone c hm
      cases c with
      | start => exact absurd hd (by simp [Resolver.CallerSt.isDone])
      | waiting g => exact absurd hd (by simp [Resolver.CallerSt.isDone])
      | done r =>
        cases r with
        | none => exact absurd (hcall.2 _ hm rfl) (fun hmm => hclean none hmm rfl)
        | some u =>
          have hu := hcall.1 _ hm u rfl
          rw [hu.2]
    refine ⟨?_, hall⟩
    have hlen := Resolver.len_run (Resolver.init K) acts
    have hne : (Resolver.run (Resolver.init K) acts).callers ≠ [] := by
      intro hnil
      rw [hnil] at hlen
      simp [Resolver.init] at hlen
      omega
    obtain ⟨c0, hc0⟩ := List.exists_mem_of_ne_nil _ hne
    exact (hcall.1 c0 hc0 1 (hall c0 hc0)).1

/-- C2 witness: two concurrent requests, the first starting the resolution,
the second coalescing onto it; one row is created and both observe handle
1. -/
theorem c2_concurrent_resolution_coalescing_witness :
    (Resolver.run (Resolver.init 2) wActs).rows = [1]
    ∧ ∀ c ∈ (Resolver.run (Resolver.init 2) wActs).callers,
        c = Resolver.CallerSt.done (some 1) :=
  (c2_concurrent_resolution_coalescing 2 wActs).2.1 (by decide) (by decide) (by decide)
